import Mathlib

/-!
Shallow embedding of the ISLa constraint-language core
(`src/isla/language.py`) and proofs about it.

Conventions:
* Python's two global monotonic counters (derivation-tree IDs and
  dummy-variable numbering) and the `ForallFormula` id counter are made
  explicit: every operation that may allocate takes the current counter
  value and returns the new one.
* Mutable caches of the source (`__hash`, `__is_open`, `__len`, k-paths)
  are not part of the state: they are lazily computed memoizations of
  functions of the immutable structure and never influence observable
  values.
* Functions of `isla.helpers` / `isla.z3_helpers` whose source is not in
  the repository snapshot are modelled from the specification; each such
  definition carries a doc comment starting with `Modelled from the spec:`.
-/

namespace Isla

/-- A path in a derivation tree: the list of child indices from the root
(`isla.type_defs.Path`). -/
abbrev TPath := List Nat

/-- Modelled from the spec: a nonterminal is a string of the form `<name>`
(`isla.helpers.is_nonterminal`, whose source file is not in the snapshot).
We require the leading `<`, the trailing `>`, and at least one character
in between. -/
def isNonterminal (s : String) : Bool :=
  s.length ≥ 3 && s.startsWith "<" && s.endsWith ">"

/-- The three Python variable classes (`Constant`, `BoundVariable`,
`DummyVariable`); `type(self) is type(other)` comparisons distinguish them. -/
inductive VarKind where
  | constant
  | boundVar
  | dummy
deriving DecidableEq, Repr

/-- `isla.language.Variable`: a kind (the concrete Python class), a name and
a nonterminal type.  Equality in the source is
`type(self) is type(other) and (name, n_type) == (name, n_type)`,
which is exactly structural equality of this structure. -/
structure Var where
  kind : VarKind
  name : String
  nType : String
deriving DecidableEq, Repr

/-- `isla.language.DerivationTree`: a value, an optional child list
(`none` = open leaf, `some []` = closed leaf) and a numeric id. -/
inductive DTree where
  | node (value : String) (children : Option (List DTree)) (id : Nat)

namespace DTree

def value : DTree → String
  | node v _ _ => v

def childrenOpt : DTree → Option (List DTree)
  | node _ c _ => c

def id : DTree → Nat
  | node _ _ i => i

end DTree

mutual
/-- Number of nodes of a tree (Python `DerivationTree.__len__`). -/
def treeSize : DTree → Nat
  | .node _ none _ => 1
  | .node _ (some cs) _ => 1 + treeListSize cs

def treeListSize : List DTree → Nat
  | [] => 0
  | t :: ts => treeSize t + treeListSize ts
end

mutual
/-- All node ids of a tree, in preorder. -/
def treeIds : DTree → List Nat
  | .node _ none i => [i]
  | .node _ (some cs) i => i :: treeListIds cs

def treeListIds : List DTree → List Nat
  | [] => []
  | t :: ts => treeIds t ++ treeListIds ts
end

/--
The Python constructor `DerivationTree.__init__(value, children, id=...)`:
the explicitly passed id is kept **only when it is truthy** (the source
tests `if id:`, so `id=0` — like `id=None` — draws a fresh id from the
global counter `DerivationTree.next_id`).  The counter is threaded
explicitly.
-/
def mkDTree (value : String) (children : Option (List DTree))
    (idArg : Option Nat) (cnt : Nat) : DTree × Nat :=
  match idArg with
  | some i => if i ≠ 0 then (.node value children i, cnt) else (.node value children cnt, cnt + 1)
  | none => (.node value children cnt, cnt + 1)

/-- `DerivationTree.get_subtree`, made total by returning `none` on an
invalid path (the source raises). -/
def getSubtree : DTree → TPath → Option DTree
  | t, [] => some t
  | .node _ none _, _ :: _ => none
  | .node _ (some cs) _, i :: p =>
    match cs[i]? with
    | none => none
    | some c => getSubtree c p

/-- `DerivationTree.is_valid_path`. -/
def isValidPath (t : DTree) (p : TPath) : Bool :=
  (getSubtree t p).isSome

/--
`DerivationTree.replace_path(path, replacement_tree, retain_id)`.
The source walks down along `path` collecting the spine on a stack, then
(for `retain_id`) re-creates the replacement with the old node's id, and
rebuilds every ancestor via the constructor with `id=parent.id` — which,
through `if id:`, allocates a *fresh* id whenever the original id is 0.
The global tree-id counter is threaded.  On an invalid path the source
raises; here the remaining tree is returned unchanged (our theorems
assume valid paths).
-/
def replacePath (t : DTree) (p : TPath) (r : DTree) (retainId : Bool)
    (cnt : Nat) : DTree × Nat :=
  match p with
  | [] =>
    if retainId then mkDTree r.value r.childrenOpt (some t.id) cnt else (r, cnt)
  | i :: rest =>
    match t with
    | .node v none tid => (.node v none tid, cnt)
    | .node v (some cs) tid =>
      match cs[i]? with
      | none => (.node v (some cs) tid, cnt)
      | some c =>
        let (c', cnt') := replacePath c rest r retainId cnt
        mkDTree v (some (cs.set i c')) (some tid) cnt'

/-- `DerivationTree.new_ids`: a copy in which every node id is drawn afresh
from the global counter (children are rebuilt first, left to right, the
parent node last — the evaluation order of the source's list comprehension
followed by the constructor call). -/
def newIds : DTree → Nat → DTree × Nat
  | .node v none _, cnt => (.node v none cnt, cnt + 1)
  | .node v (some cs) _, cnt =>
    let (cs', cnt') := newIdsList cs cnt
    (.node v (some cs') cnt', cnt' + 1)
where
  newIdsList : List DTree → Nat → List DTree × Nat
    | [], cnt => ([], cnt)
    | t :: ts, cnt =>
      let (t', cnt') := newIds t cnt
      let (ts', cnt'') := newIdsList ts cnt'
      (t' :: ts', cnt'')

mutual
/-- `DerivationTree.structurally_equal`: same values and child structure,
ignoring ids. -/
def structurallyEqual : DTree → DTree → Bool
  | .node v none _, .node v' none _ => v = v'
  | .node v (some cs) _, .node v' (some cs') _ =>
    v = v' && structurallyEqualList cs cs'
  | _, _ => false

def structurallyEqualList : List DTree → List DTree → Bool
  | [], [] => true
  | t :: ts, t' :: ts' => structurallyEqual t t' && structurallyEqualList ts ts'
  | _, _ => false
end

mutual
/-- `DerivationTree.__eq__`: equality takes the id into account.  The
source runs an explicit work-list; node pairs are checked for equal value,
equal id, matching `None`-ness of the children and equal child count, and
the children are compared pairwise — which is this recursion. -/
def treeEq : DTree → DTree → Bool
  | .node v none i, .node v' none i' => v = v' && i = i'
  | .node v (some cs) i, .node v' (some cs') i' =>
    v = v' && i = i' && treeEqList cs cs'
  | _, _ => false

def treeEqList : List DTree → List DTree → Bool
  | [], [] => true
  | t :: ts, t' :: ts' => treeEq t t' && treeEqList ts ts'
  | _, _ => false
end

mutual
theorem newIds_snd (t : DTree) (c : Nat) : (newIds t c).2 = c + treeSize t := by
  cases t with
  | node v cs i =>
    cases cs with
    | none => simp [newIds, treeSize]
    | some l =>
      simp only [newIds, treeSize]
      rw [newIdsList_snd l c]
      omega

theorem newIdsList_snd (ts : List DTree) (c : Nat) :
    (newIds.newIdsList ts c).2 = c + treeListSize ts := by
  cases ts with
  | nil => simp [newIds.newIdsList, treeListSize]
  | cons t ts' =>
    simp only [newIds.newIdsList, treeListSize]
    rw [newIdsList_snd ts' (newIds t c).2, newIds_snd t c]
    omega
end

mutual
theorem newIds_ids_bound (t : DTree) (c : Nat) :
    ∀ i ∈ treeIds (newIds t c).1, c ≤ i ∧ i < c + treeSize t := by
  cases t with
  | node v cs i =>
    cases cs with
    | none => simp [newIds, treeIds, treeSize]
    | some l =>
      intro j hj
      simp only [newIds, treeIds] at hj
      rcases List.mem_cons.mp hj with h | h
      · subst h
        rw [newIdsList_snd l c]
        simp only [treeSize]; omega
      · have := newIdsList_ids_bound l c j h
        simp only [treeSize]; omega

theorem newIdsList_ids_bound (ts : List DTree) (c : Nat) :
    ∀ i ∈ treeListIds (newIds.newIdsList ts c).1, c ≤ i ∧ i < c + treeListSize ts := by
  cases ts with
  | nil => simp [newIds.newIdsList, treeListIds]
  | cons t ts' =>
    intro j hj
    simp only [newIds.newIdsList, treeListIds] at hj
    rcases List.mem_append.mp hj with h | h
    · have := newIds_ids_bound t c j h
      simp only [treeListSize]; omega
    · have := newIdsList_ids_bound ts' (newIds t c).2 j h
      rw [newIds_snd t c] at this
      simp only [treeListSize]; omega
end

mutual
theorem newIds_structEq (t : DTree) (c : Nat) :
    structurallyEqual t (newIds t c).1 = true := by
  cases t with
  | node v cs i =>
    cases cs with
    | none => simp [newIds, structurallyEqual]
    | some l =>
      simp only [newIds, structurallyEqual, Bool.and_eq_true, decide_eq_true_eq]
      exact ⟨trivial, newIdsList_structEq l c⟩

theorem newIdsList_structEq (ts : List DTree) (c : Nat) :
    structurallyEqualList ts (newIds.newIdsList ts c).1 = true := by
  cases ts with
  | nil => simp [newIds.newIdsList, structurallyEqualList]
  | cons t ts' =>
    simp only [newIds.newIdsList, structurallyEqualList, Bool.and_eq_true]
    exact ⟨newIds_structEq t c, newIdsList_structEq ts' (newIds t c).2⟩
end

/-- **C7.** `new_ids()` returns a structurally equal copy (per
`structurally_equal`) in which every node id is fresh: provided the global
id counter `c` is larger than every id in `t` (the invariant maintained by
the monotonic counter `DerivationTree.next_id`), no id of `t` occurs in
the copy. -/
theorem new_ids_structurally_equal_and_fresh (t : DTree) (c : Nat)
    (h : ∀ i ∈ treeIds t, i < c) :
    structurallyEqual t (newIds t c).1 = true ∧
    ∀ i ∈ treeIds (newIds t c).1, i ∉ treeIds t := by
  refine ⟨newIds_structEq t c, ?_⟩
  intro i hi hmem
  have h1 := (newIds_ids_bound t c i hi).1
  have h2 := h i hmem
  omega

/-- A concrete tree used by the witnesses. -/
def sampleTree : DTree :=
  .node "<a>" (some [.node "x" (some []) 1, .node "<b>" none 2]) 0

/-- Witness for C7 at `sampleTree` with counter 7. -/
theorem new_ids_structurally_equal_and_fresh_witness :
    structurallyEqual sampleTree (newIds sampleTree 7).1 = true ∧
    ∀ i ∈ treeIds (newIds sampleTree 7).1, i ∉ treeIds sampleTree :=
  new_ids_structurally_equal_and_fresh sampleTree 7 (by decide)

theorem treeEq_root_id {t u : DTree} (h : treeEq t u = true) : t.id = u.id := by
  cases t with
  | node v cs i =>
    cases u with
    | node v' cs' i' =>
      cases cs <;> cases cs' <;>
        simp_all [treeEq, DTree.id, Bool.and_eq_true, decide_eq_true_eq]

mutual
theorem treeIds_length (t : DTree) : (treeIds t).length = treeSize t := by
  cases t with
  | node v cs i =>
    cases cs with
    | none => simp [treeIds, treeSize]
    | some l =>
      simp only [treeIds, treeSize, List.length_cons]
      rw [treeListIds_length l]
      omega

theorem treeListIds_length (ts : List DTree) :
    (treeListIds ts).length = treeListSize ts := by
  cases ts with
  | nil => simp [treeListIds, treeListSize]
  | cons t ts' =>
    simp only [treeListIds, treeListSize, List.length_append]
    rw [treeIds_length t, treeListIds_length ts']
end

mutual
theorem structEq_size {t u : DTree} (h : structurallyEqual t u = true) :
    treeSize t = treeSize u := by
  cases t with
  | node v cs i =>
    cases u with
    | node v' cs' i' =>
      cases cs with
      | none => cases cs' <;> simp_all [structurallyEqual, treeSize]
      | some l =>
        cases cs' with
        | none => simp_all [structurallyEqual]
        | some l' =>
          simp only [structurallyEqual, Bool.and_eq_true] at h
          simp only [treeSize]
          rw [structEqList_size h.2]

theorem structEqList_size {ts us : List DTree}
    (h : structurallyEqualList ts us = true) :
    treeListSize ts = treeListSize us := by
  cases ts with
  | nil => cases us <;> simp_all [structurallyEqualList, treeListSize]
  | cons t ts' =>
    cases us with
    | nil => simp_all [structurallyEqualList]
    | cons u us' =>
      simp only [structurallyEqualList, Bool.and_eq_true] at h
      simp only [treeListSize]
      rw [structEq_size h.1, structEqList_size h.2]
end

mutual
theorem treeEq_iff_structEq_and_ids (t u : DTree) :
    treeEq t u = true ↔
      (structurallyEqual t u = true ∧ treeIds t = treeIds u) := by
  cases t with
  | node v cs i =>
    cases u with
    | node v' cs' i' =>
      cases cs with
      | none =>
        cases cs' <;>
          simp_all [treeEq, structurallyEqual, treeIds, Bool.and_eq_true,
            decide_eq_true_eq, and_comm]
      | some l =>
        cases cs' with
        | none => simp [treeEq, structurallyEqual]
        | some l' =>
          simp only [treeEq, structurallyEqual, treeIds, Bool.and_eq_true,
            decide_eq_true_eq, List.cons.injEq]
          constructor
          · rintro ⟨⟨hv, hi⟩, hl⟩
            have := (treeEqList_iff_structEqList_and_ids l l').mp hl
            exact ⟨⟨hv, this.1⟩, hi, this.2⟩
          · rintro ⟨⟨hv, hl⟩, hi, hids⟩
            exact ⟨⟨hv, hi⟩,
              (treeEqList_iff_structEqList_and_ids l l').mpr ⟨hl, hids⟩⟩

theorem treeEqList_iff_structEqList_and_ids (ts us : List DTree) :
    treeEqList ts us = true ↔
      (structurallyEqualList ts us = true ∧ treeListIds ts = treeListIds us) := by
  cases ts with
  | nil => cases us <;> simp [treeEqList, structurallyEqualList, treeListIds]
  | cons t ts' =>
    cases us with
    | nil => simp [treeEqList, structurallyEqualList]
    | cons u us' =>
      simp only [treeEqList, structurallyEqualList, treeListIds,
        Bool.and_eq_true]
      constructor
      · rintro ⟨h1, h2⟩
        have e1 := (treeEq_iff_structEq_and_ids t u).mp h1
        have e2 := (treeEqList_iff_structEqList_and_ids ts' us').mp h2
        exact ⟨⟨e1.1, e2.1⟩, by rw [e1.2, e2.2]⟩
      · rintro ⟨⟨h1, h2⟩, happ⟩
        have hlen : (treeIds t).length = (treeIds u).length := by
          rw [treeIds_length, treeIds_length, structEq_size h1]
        have := List.append_inj happ hlen
        exact ⟨(treeEq_iff_structEq_and_ids t u).mpr ⟨h1, this.1⟩,
          (treeEqList_iff_structEqList_and_ids ts' us').mpr ⟨h2, this.2⟩⟩
end

/-- **C10.** `DerivationTree.__eq__` is identity-sensitive: two trees are
`__eq__`-equal iff they are structurally equal and carry the same ids at
every corresponding node (same preorder id list); consequently a tree and
its `new_ids()` copy (fresh ids drawn from a counter `c` exceeding all
ids of `t`) are `__eq__`-unequal although structurally equal. -/
theorem tree_eq_identity_sensitive :
    (∀ t u : DTree, treeEq t u = true ↔
      (structurallyEqual t u = true ∧ treeIds t = treeIds u)) ∧
    (∀ (t : DTree) (c : Nat), (∀ i ∈ treeIds t, i < c) →
      treeEq t (newIds t c).1 = false ∧
      structurallyEqual t (newIds t c).1 = true) := by
  refine ⟨treeEq_iff_structEq_and_ids, fun t c h => ⟨?_, newIds_structEq t c⟩⟩
  by_contra hne
  have heq : treeEq t (newIds t c).1 = true := by
    cases hb : treeEq t (newIds t c).1
    · exact absurd hb hne
    · rfl
  have hid := treeEq_root_id heq
  have hroot : (newIds t c).1.id ∈ treeIds (newIds t c).1 := by
    cases t with
    | node v cs i => cases cs <;> simp [newIds, treeIds, DTree.id]
  have h1 := (newIds_ids_bound t c _ hroot).1
  have h2 : t.id ∈ treeIds t := by
    cases t with
    | node v cs i => cases cs <;> simp [treeIds, DTree.id]
  have := h t.id h2
  omega

/-- Witness for C10's second part at `sampleTree`. -/
theorem tree_eq_identity_sensitive_witness :
    treeEq sampleTree (newIds sampleTree 7).1 = false ∧
    structurallyEqual sampleTree (newIds sampleTree 7).1 = true :=
  tree_eq_identity_sensitive.2 sampleTree 7 (by decide)

mutual
theorem treeEq_iff_eq (t u : DTree) : treeEq t u = true ↔ t = u := by
  cases t with
  | node v cs i =>
    cases u with
    | node v' cs' i' =>
      cases cs with
      | none =>
        cases cs' <;>
          simp [treeEq, Bool.and_eq_true, decide_eq_true_eq, and_comm]
      | some l =>
        cases cs' with
        | none => simp [treeEq]
        | some l' =>
          simp only [treeEq, Bool.and_eq_true, decide_eq_true_eq,
            DTree.node.injEq, Option.some.injEq]
          rw [treeEqList_iff_eq l l']
          tauto

theorem treeEqList_iff_eq (ts us : List DTree) :
    treeEqList ts us = true ↔ ts = us := by
  cases ts with
  | nil => cases us <;> simp [treeEqList]
  | cons t ts' =>
    cases us with
    | nil => simp [treeEqList]
    | cons u us' =>
      simp only [treeEqList, Bool.and_eq_true, List.cons.injEq]
      rw [treeEq_iff_eq t u, treeEqList_iff_eq ts' us']
end

instance : DecidableEq DTree := fun t u =>
  decidable_of_iff _ (treeEq_iff_eq t u)

theorem root_id_mem_treeIds (t : DTree) : t.id ∈ treeIds t := by
  cases t with
  | node v cs i => cases cs <;> simp [treeIds, DTree.id]

theorem treeIds_mem_of_mem_list {t : DTree} {ts : List DTree} (h : t ∈ ts) :
    ∀ i ∈ treeIds t, i ∈ treeListIds ts := by
  induction ts with
  | nil => cases h
  | cons u us ih =>
    intro i hi
    rcases List.mem_cons.mp h with rfl | hmem
    · exact List.mem_append.mpr (Or.inl hi)
    · exact List.mem_append.mpr (Or.inr (ih hmem i hi))

theorem treeIds_subset_of_getSubtree {q : TPath} :
    ∀ {t s : DTree}, getSubtree t q = some s → ∀ i ∈ treeIds s, i ∈ treeIds t := by
  induction q with
  | nil =>
    intro t s h
    simp only [getSubtree, Option.some.injEq] at h
    subst h; exact fun i hi => hi
  | cons j q' ih =>
    intro t s h
    cases t with
    | node v cs tid =>
      cases cs with
      | none => simp [getSubtree] at h
      | some l =>
        simp only [getSubtree] at h
        cases hg : l[j]? with
        | none => rw [hg] at h; simp at h
        | some cj =>
          rw [hg] at h
          intro i hi
          have hmem : cj ∈ l := List.getElem?_mem hg
          have : i ∈ treeIds cj := ih h i hi
          simp only [treeIds, List.mem_cons]
          exact Or.inr (treeIds_mem_of_mem_list hmem i this)

/-- **C1 (amended).** `replace_path(p, r, retain_id)` on a tree all of
whose ids are nonzero (so that the constructor's truthiness test `if id:`
keeps every explicitly passed id): the subtree at `p` becomes `r`
(re-created with the old node's id when `retain_id` is set), every proper
ancestor on the path keeps its value and its id, and every subtree at a
path diverging from `p` is literally unchanged (same structure and ids).
For a node with id 0 the source draws a fresh id instead — see the
counterexample. -/
theorem replace_path_frame (p : TPath) :
    ∀ (t r : DTree) (retain : Bool) (c : Nat) (tp : DTree),
    getSubtree t p = some tp →
    (∀ i ∈ treeIds t, i ≠ 0) →
    (getSubtree (replacePath t p r retain c).1 p =
        some (if retain then DTree.node r.value r.childrenOpt tp.id else r)) ∧
    (∀ q, q <+: p → q ≠ p →
        ∃ tq tq', getSubtree t q = some tq ∧
          getSubtree (replacePath t p r retain c).1 q = some tq' ∧
          tq'.value = tq.value ∧ tq'.id = tq.id) ∧
    (∀ q, ¬ q <+: p → ¬ p <+: q →
        getSubtree (replacePath t p r retain c).1 q = getSubtree t q) := by
  induction p with
  | nil =>
    intro t r retain c tp hval hnz
    simp only [getSubtree, Option.some.injEq] at hval
    subst hval
    have hid : t.id ≠ 0 := hnz t.id (root_id_mem_treeIds t)
    have hres : (replacePath t [] r retain c).1 =
        if retain then DTree.node r.value r.childrenOpt t.id else r := by
      cases retain <;> simp [replacePath, mkDTree, hid]
    refine ⟨by rw [hres]; cases retain <;> simp [getSubtree], ?_, ?_⟩
    · intro q hq hne
      exact absurd (List.prefix_nil.mp hq) hne
    · intro q hq hq2
      exact absurd (List.nil_prefix (l := q)) hq2
  | cons i rest ih =>
    intro t r retain c tp hval hnz
    cases t with
    | node v cso tid =>
      cases cso with
      | none => simp [getSubtree] at hval
      | some cs =>
        simp only [getSubtree] at hval
        cases hg : cs[i]? with
        | none => rw [hg] at hval; simp at hval
        | some ci =>
          rw [hg] at hval
          have htid : tid ≠ 0 :=
            hnz tid (root_id_mem_treeIds (DTree.node v (some cs) tid))
          have hnzci : ∀ j ∈ treeIds ci, j ≠ 0 := by
            intro j hj
            refine hnz j (treeIds_subset_of_getSubtree (q := [i]) ?_ j hj)
            simp [getSubtree, hg]
          have hIH := ih ci r retain c tp hval hnzci
          have hilt : i < cs.length := by
            by_contra hc
            rw [List.getElem?_eq_none (by omega)] at hg
            cases hg
          have hres : (replacePath (DTree.node v (some cs) tid) (i :: rest) r retain c).1 =
              DTree.node v (some (cs.set i (replacePath ci rest r retain c).1)) tid := by
            simp [replacePath, hg, mkDTree, htid]
          have hgetset : (cs.set i (replacePath ci rest r retain c).1)[i]? =
              some (replacePath ci rest r retain c).1 := by
            rw [List.getElem?_set_self (by simpa using hilt)]
          refine ⟨?_, ?_, ?_⟩
          · rw [hres]
            simp only [getSubtree, hgetset]
            exact hIH.1
          · intro q hq hne
            cases q with
            | nil =>
              refine ⟨DTree.node v (some cs) tid,
                DTree.node v (some (cs.set i (replacePath ci rest r retain c).1)) tid,
                rfl, by rw [hres]; rfl, rfl, rfl⟩
            | cons j q' =>
              obtain ⟨rfl, hq'⟩ := List.cons_prefix_cons.mp hq
              have hne' : q' ≠ rest := fun h => hne (by rw [h])
              obtain ⟨tq, tq', h1, h2, h3, h4⟩ := hIH.2.1 q' hq' hne'
              refine ⟨tq, tq', ?_, ?_, h3, h4⟩
              · simp only [getSubtree, hg]; exact h1
              · rw [hres]; simp only [getSubtree, hgetset]; exact h2
          · intro q hq1 hq2
            cases q with
            | nil => exact absurd (List.nil_prefix (l := i :: rest)) hq1
            | cons j q' =>
              by_cases hji : j = i
              · subst hji
                have hnp1 : ¬ q' <+: rest := fun h => hq1 (List.cons_prefix_cons.mpr ⟨rfl, h⟩)
                have hnp2 : ¬ rest <+: q' := fun h => hq2 (List.cons_prefix_cons.mpr ⟨rfl, h⟩)
                rw [hres]
                simp only [getSubtree, hgetset, hg]
                exact hIH.2.2 q' hnp1 hnp2
              · rw [hres]
                simp only [getSubtree]
                rw [List.getElem?_set_ne (fun h => hji h.symm)]

/-- A concrete tree with nonzero ids, used by witnesses. -/
def sampleTreeNZ : DTree :=
  .node "<a>" (some [.node "x" (some []) 6, .node "<b>" none 7]) 5

/-- A tree whose root has id 0 (the id the very first constructed
`DerivationTree` receives from the global counter). -/
def zeroRootTree : DTree := .node "<a>" (some [.node "x" (some []) 1]) 0

/-- A replacement tree. -/
def replTree : DTree := .node "y" (some []) 5

/-- **C1 counterexample.** Replacing the child of a tree whose root id is
0: the rebuilt root does *not* retain its original id 0 — the constructor's
`if id:` treats 0 as "no id given" and draws a fresh id from the counter
(here 2). -/
theorem replace_path_zero_id_counterexample :
    zeroRootTree.id = 0 ∧
    isValidPath zeroRootTree [0] = true ∧
    (replacePath zeroRootTree [0] replTree false 2).1.id = 2 ∧
    (replacePath zeroRootTree [0] replTree false 2).1.id ≠ zeroRootTree.id := by
  refine ⟨rfl, rfl, rfl, by decide⟩

/-- Witness for the amended C1 at a concrete tree, path and replacement;
the inner quantifiers are instantiated at concrete paths. -/
theorem replace_path_frame_witness :
    (getSubtree (replacePath sampleTreeNZ [0] replTree false 20).1 [0] =
        some replTree) ∧
    (∃ tq tq', getSubtree sampleTreeNZ [] = some tq ∧
      getSubtree (replacePath sampleTreeNZ [0] replTree false 20).1 [] = some tq' ∧
      tq'.value = tq.value ∧ tq'.id = tq.id) ∧
    (getSubtree (replacePath sampleTreeNZ [0] replTree false 20).1 [1] =
        getSubtree sampleTreeNZ [1]) := by
  have h := replace_path_frame [0] sampleTreeNZ replTree false 20
    (.node "x" (some []) 6) (by decide) (by decide)
  exact ⟨h.1, h.2.1 [] (by decide) (by decide),
    h.2.2 [1] (by decide) (by decide)⟩

mutual
/-- `DerivationTree.paths()`: all `(path, subtree)` pairs in depth-first
preorder, left to right (the iterative `traverse` of the source produces
exactly this order). -/
def treePaths : DTree → List (TPath × DTree)
  | .node v none i => [([], .node v none i)]
  | .node v (some cs) i => ([], .node v (some cs) i) :: treePathsList cs 0

def treePathsList : List DTree → Nat → List (TPath × DTree)
  | [], _ => []
  | c :: rest, i =>
    (treePaths c).map (fun ps => (i :: ps.1, ps.2)) ++ treePathsList rest (i + 1)
end

/-- `DerivationTree.find_node`: the first preorder path whose subtree has
the given id, if any. -/
def findNode (t : DTree) (nid : Nat) : Option TPath :=
  ((treePaths t).find? (fun ps => ps.2.id = nid)).map (·.1)

mutual
/-- `DerivationTree.is_open`: some descendant (or the node itself) is an
open leaf, i.e. has children `None`.  (The source caches this; the cache
is write-once and consistent, so the cached and the recomputed value
agree.) -/
def isOpenTree : DTree → Bool
  | .node _ none _ => true
  | .node _ (some cs) _ => isOpenTreeList cs

def isOpenTreeList : List DTree → Bool
  | [] => false
  | c :: cs => isOpenTree c || isOpenTreeList cs
end

/-- `DerivationTree.is_complete`. -/
def isComplete (t : DTree) : Bool := !isOpenTree t

mutual
/-- `DerivationTree.to_string(show_open_leaves)`: concatenation of the
terminal leaves; a closed leaf labelled with a nonterminal contributes
nothing; an open leaf contributes its label iff the flag is set. -/
def treeToString (showOpen : Bool) : DTree → String
  | .node v none _ => if showOpen then v else ""
  | .node v (some []) _ => if isNonterminal v then "" else v
  | .node _ (some (c :: cs)) _ => treeToStringList showOpen (c :: cs)

def treeToStringList (showOpen : Bool) : List DTree → String
  | [] => ""
  | c :: cs => treeToString showOpen c ++ treeToStringList showOpen cs
end

/-- `DerivationTree.__str__` = `to_string(show_open_leaves=True)`. -/
def treeStr (t : DTree) : String := treeToString true t

/-- A `Variable` or a `DerivationTree` (keys of substitution maps,
`in_variable` of quantified formulas, …). -/
inductive VarOrTree where
  | var (v : Var)
  | tree (t : DTree)
deriving DecidableEq

/-- Insert into an insertion-ordered association list the way a Python
`dict` does: overwrite in place if the key exists, else append. -/
def alistInsert {α β : Type} [DecidableEq α]
    (l : List (α × β)) (k : α) (v : β) : List (α × β) :=
  if l.any (fun kv => kv.1 = k) then
    l.map (fun kv => if kv.1 = k then (k, v) else kv)
  else l ++ [(k, v)]

/-- First value bound to a key in an association list (Python `dict`
lookup; our lists have unique keys by construction via `alistInsert`). -/
def alistGet {α β : Type} [DecidableEq α]
    (l : List (α × β)) (k : α) : Option β :=
  (l.find? (fun kv => kv.1 = k)).map (·.2)

/--
`DerivationTree.substitute(subst_map)`: only `DerivationTree`-keyed
entries act (variable keys are ignored by this method); an entry is
dropped when its key's id occurs strictly inside another replacement
value; the remaining `{id: replacement}` map (a Python dict, insertion
ordered) is processed entry by entry with `find_node` + `replace_path`.
The tree-id counter is threaded (for `replace_path` on zero ids).
-/
def substituteTree (t : DTree) (m : List (VarOrTree × DTree)) (c : Nat) :
    DTree × Nat :=
  let treePairs := m.filterMap (fun kv =>
    match kv.1 with | .tree k => some (k, kv.2) | _ => none)
  let kept := treePairs.filter (fun kv =>
    treePairs.all (fun okv => okv.2.id = kv.1.id || (findNode okv.2 kv.1.id).isNone))
  let idMap := kept.foldl (fun acc kv => alistInsert acc kv.1.id kv.2) []
  go idMap t c
where
  go : List (Nat × DTree) → DTree → Nat → DTree × Nat
    | [], t, c => (t, c)
    | (nid, repl) :: rest, t, c =>
      match findNode t nid with
      | none => go rest t c
      | some p =>
        let (t', c') := replacePath t p repl false c
        go rest t' c'

/-- Modelled from the spec: string-sorted Z3 terms as they occur in the
core's SMT leaves — string literals (`z3.StringVal`) and string variables
(`z3.String`, produced by `Variable.to_smt`).  The SMT backend itself is
an external collaborator of the core. -/
inductive Z3Str where
  | strVal (s : String)
  | strVar (name : String)
deriving DecidableEq, Repr

/-- Modelled from the spec: boolean Z3 expressions — the boolean
constants, boolean combinators and theory atoms over string terms.  The
core stores these by opaque handle and uses only symbol extraction,
substitution, negation push-in and validity. -/
inductive Z3Expr where
  | boolVal (b : Bool)
  | notE (a : Z3Expr)
  | andE (a b : Z3Expr)
  | orE (a b : Z3Expr)
  | atom (op : String) (args : List Z3Str)
deriving DecidableEq, Repr

/-- Modelled from the spec: `isla.z3_helpers.get_symbols` — the free
symbol names of an expression. -/
def getSymbols : Z3Expr → List String
  | .boolVal _ => []
  | .notE a => getSymbols a
  | .andE a b => getSymbols a ++ getSymbols b
  | .orE a b => getSymbols a ++ getSymbols b
  | .atom _ args => args.filterMap (fun | .strVar n => some n | _ => none)

/-- Modelled from the spec: `isla.z3_helpers.z3_subst` — symbol-for-symbol
or symbol-for-string-literal substitution. -/
def z3Subst (e : Z3Expr) (m : List (String × Z3Str)) : Z3Expr :=
  match e with
  | .boolVal b => .boolVal b
  | .notE a => .notE (z3Subst a m)
  | .andE a b => .andE (z3Subst a m) (z3Subst b m)
  | .orE a b => .orE (z3Subst a m) (z3Subst b m)
  | .atom op args => .atom op (args.map (fun
      | .strVar n => ((m.find? (fun kv => kv.1 = n)).map (·.2)).getD (.strVar n)
      | .strVal s => .strVal s))

/-- Modelled from the spec: `isla.z3_helpers.z3_push_in_negations` —
rewrites `¬(a ∧ b)` to `¬a ∨ ¬b` etc., pushing the (optional outer)
negation down to the atoms. -/
def z3PushInNegations : Z3Expr → Bool → Z3Expr
  | .boolVal b, negate => .boolVal (if negate then !b else b)
  | .notE a, negate => z3PushInNegations a (!negate)
  | .andE a b, negate =>
    if negate then .orE (z3PushInNegations a true) (z3PushInNegations b true)
    else .andE (z3PushInNegations a false) (z3PushInNegations b false)
  | .orE a b, negate =>
    if negate then .andE (z3PushInNegations a true) (z3PushInNegations b true)
    else .orE (z3PushInNegations a false) (z3PushInNegations b false)
  | .atom op args, negate =>
    if negate then .notE (.atom op args) else .atom op args

/-- Modelled from the spec: `isla.z3_helpers.is_valid` — the three-valued
validity check of the SMT adapter (`none` = unknown, for formulas that
still contain theory atoms). -/
def z3IsValid : Z3Expr → Option Bool
  | .boolVal b => some b
  | .notE a => (z3IsValid a).map (!·)
  | .andE a b =>
    match z3IsValid a, z3IsValid b with
    | some false, _ => some false
    | _, some false => some false
    | some true, some true => some true
    | _, _ => none
  | .orE a b =>
    match z3IsValid a, z3IsValid b with
    | some true, _ => some true
    | _, some true => some true
    | some false, some false => some false
    | _, _ => none
  | .atom _ _ => none

/-- Modelled from the spec: `ThreeValuedTruth.to_bool` — only a definite
TRUE maps to `true`. -/
def threeValuedToBool (r : Option Bool) : Bool :=
  match r with
  | some true => true
  | _ => false

/-- `z3.is_false(expr)`: the expression is the literal `False`. -/
def z3ExprIsFalse (e : Z3Expr) : Bool := e = .boolVal false

/-- `z3.is_true(expr)`. -/
def z3ExprIsTrue (e : Z3Expr) : Bool := e = .boolVal true

/-- `orderedset.OrderedSet`: add keeps first-occurrence order. -/
def osAdd {α : Type} [DecidableEq α] (l : List α) (x : α) : List α :=
  if x ∈ l then l else l ++ [x]

/-- `OrderedSet(iterable)`: insertion-ordered deduplication. -/
def odedup {α : Type} [DecidableEq α] (l : List α) : List α :=
  l.foldl osAdd []

/-- `OrderedSet.__or__` / `update`. -/
def oUnion {α : Type} [DecidableEq α] (a b : List α) : List α :=
  b.foldl osAdd a

/-- `OrderedSet` difference. -/
def oDiff {α : Type} [DecidableEq α] (a b : List α) : List α :=
  a.filter (fun x => decide (x ∉ b))

/-- An element of `BindExpression.bound_elements`: a single variable
(bound or dummy) or an *optional group* (a list of variables). -/
inductive BElem where
  | v (x : Var)
  | group (xs : List Var)
deriving DecidableEq

/-- `isla.language.BindExpression` (the `prefixes` and
`__flattened_elements` fields are memoization caches and are omitted). -/
structure BindExpr where
  elems : List BElem
deriving DecidableEq

/-- `BindExpression.bound_variables()`: the top-level elements that are
plain `BoundVariable`s (`type(var) is BoundVariable` excludes dummy
variables and optional groups), as an ordered set. -/
def beBoundVariables (b : BindExpr) : List Var :=
  odedup (b.elems.filterMap (fun
    | .v x => if x.kind = .boundVar then some x else none
    | .group _ => none))

/-- `BindExpression.substitute_variables`: maps non-list elements through
the substitution (optional groups are passed through unchanged) and
re-wraps them in a new bind expression. -/
def beSubstVars (b : BindExpr) (m : List (Var × Var)) : BindExpr :=
  ⟨b.elems.map (fun
    | .group xs => .group xs
    | .v x => .v ((alistGet m x).getD x))⟩

/-- The shape `BindExpression.__dummy_vars_to_str` maps elements to for
equality and hashing: dummy variables are identified by their `n_type`
string, other variables by themselves. -/
inductive BKey where
  | str (s : String)
  | var (x : Var)
deriving DecidableEq

def bKeyOf (x : Var) : BKey :=
  if x.kind = .dummy then .str x.nType else .var x

def beKeys (b : BindExpr) : List (BKey ⊕ List BKey) :=
  b.elems.map (fun
    | .v x => Sum.inl (bKeyOf x)
    | .group xs => Sum.inr (xs.map bKeyOf))

/-- `BindExpression.__eq__`: elementwise comparison after
`__dummy_vars_to_str`. -/
def beEq (a b : BindExpr) : Bool := beKeys a = beKeys b

/-- `DummyVariable.__init__`: auto-numbered name `DUMMY_<cnt>` from the
per-class counter, which is threaded explicitly. -/
def mkDummy (nType : String) (c : Nat) : Var × Nat :=
  (⟨.dummy, "DUMMY_" ++ toString c, nType⟩, c + 1)

def mkDummies : List String → Nat → List Var × Nat
  | [], c => ([], c)
  | s :: ss, c =>
    let (d, c') := mkDummy s c
    let (ds, c'') := mkDummies ss c'
    (d :: ds, c'')

/-- Modelled from the spec: scanning one nonterminal token `<name>`
(regular expression `RE_NONTERMINAL` of `isla.helpers`) at the position
just after a `<`. -/
def scanNonterminal (cs : List Char) : Option (String × List Char) :=
  let inner := cs.takeWhile (fun c => c ≠ '<' && c ≠ '>' && c ≠ ' ')
  match cs.drop inner.length with
  | '>' :: rest => some (String.mk ('<' :: (inner ++ ['>'])), rest)
  | _ => none

/-- Modelled from the spec: `re.split(RE_NONTERMINAL, s)` keeping the
nonterminal tokens and dropping empty fragments — the decomposition of a
match-expression string into terminal fragments and nonterminal tokens.
Implemented with explicit fuel (one unit per consumed character; the
initial fuel `|s| + 1` is always sufficient). -/
def splitNTGo : Nat → List Char → List Char → List String
  | 0, rest, cur =>
    if (rest.isEmpty && cur.isEmpty) then [] else [String.mk (cur.reverse ++ rest)]
  | _ + 1, [], cur => if cur.isEmpty then [] else [String.mk cur.reverse]
  | fuel + 1, '<' :: rest, cur =>
    match scanNonterminal rest with
    | some (nt, rest') =>
      (if cur.isEmpty then [] else [String.mk cur.reverse]) ++
        nt :: splitNTGo fuel rest' []
    | none => splitNTGo fuel rest ('<' :: cur)
  | fuel + 1, c :: rest, cur => splitNTGo fuel rest (c :: cur)

def splitNT (s : String) : List String :=
  splitNTGo (s.data.length + 1) s.data []

/-- The argument forms accepted by `BindExpression.__init__`:
a string, a `BoundVariable`, a list of strings (an optional group in
textual form) or a list of variables (an already-built optional group). -/
inductive BInput where
  | str (s : String)
  | v (x : Var)
  | strList (ss : List String)
  | varList (xs : List Var)

/-- `BindExpression.__init__(*bound_elements)`: variables are appended;
variable lists become optional groups; strings (and joined string lists)
are split at nonterminal boundaries into auto-numbered dummy variables.
The constructor accepts *any* argument list, including the empty one.
The dummy-variable counter is threaded. -/
def mkBindExpression (inputs : List BInput) (c : Nat) : BindExpr × Nat :=
  go [] inputs c
where
  go (acc : List BElem) : List BInput → Nat → BindExpr × Nat
    | [], c => (⟨acc⟩, c)
    | .v x :: rest, c => go (acc ++ [.v x]) rest c
    | .varList xs :: rest, c => go (acc ++ [.group xs]) rest c
    | .strList ss :: rest, c =>
      let (ds, c') := mkDummies (splitNT (String.join ss)) c
      go (acc ++ [.group ds]) rest c'
    | .str sstr :: rest, c =>
      let (ds, c') := mkDummies (splitNT sstr) c
      go (acc ++ ds.map BElem.v) rest c'

/-- `isla.language.StructuralPredicate` restricted to what the embedded
operations consult: equality and hashing use `(name, arity)`; the
evaluation function is never invoked by the AST operations modelled
here. -/
structure SPred where
  name : String
  arity : Nat
deriving DecidableEq

/-- `isla.language.SemanticPredicate`, likewise identified by
`(name, arity)`. -/
structure QPred where
  name : String
  arity : Nat
deriving DecidableEq

/-- A predicate-formula argument: a variable, a string literal, a
derivation tree or (for semantic predicates) an integer. -/
inductive PArg where
  | var (v : Var)
  | str (s : String)
  | tree (t : DTree)
  | int (n : Int)
deriving DecidableEq

/-- The formula AST of `isla.language`.  `forallF` carries the
`already_matched` tree-id set and the numeric formula id; `existsF` has
neither.  SMT leaves carry the expression, the ordered sets of free and
instantiated variables, the deferred substitutions and the `auto_eval`
flag (`is_true`/`is_false` are derived from the expression). -/
inductive Formula where
  | smt (expr : Z3Expr) (freeVars : List Var) (instVars : List Var)
        (substs : List (Var × DTree)) (autoEval : Bool)
  | structPred (pred : SPred) (args : List PArg)
  | semPred (pred : QPred) (args : List PArg) (order : Int)
  | negF (arg : Formula)
  | conjF (args : List Formula)
  | disjF (args : List Formula)
  | forallF (bv : Var) (inVar : VarOrTree) (inner : Formula)
            (bindExpr : Option BindExpr) (alreadyMatched : List Nat) (fid : Nat)
  | existsF (bv : Var) (inVar : VarOrTree) (inner : Formula)
            (bindExpr : Option BindExpr)
  | forallIntF (bv : Var) (inner : Formula)
  | existsIntF (bv : Var) (inner : Formula)

/-- `SMTFormula(z3.BoolVal(False))`. -/
def smtFalseF : Formula := .smt (.boolVal false) [] [] [] true

/-- `SMTFormula(z3.BoolVal(True))`. -/
def smtTrueF : Formula := .smt (.boolVal true) [] [] [] true

mutual
/-- Structural size measure used for well-founded recursions
(conjunctions and disjunctions weigh 2 so that flattening them via
`split_conjunction` strictly decreases the measure). -/
def sizeF : Formula → Nat
  | .smt _ _ _ _ _ => 1
  | .structPred _ _ => 1
  | .semPred _ _ _ => 1
  | .negF x => 1 + sizeF x
  | .conjF args => 2 + sizeFList args
  | .disjF args => 2 + sizeFList args
  | .forallF _ _ inner _ _ _ => 1 + sizeF inner
  | .existsF _ _ inner _ => 1 + sizeF inner
  | .forallIntF _ inner => 1 + sizeF inner
  | .existsIntF _ inner => 1 + sizeF inner

def sizeFList : List Formula → Nat
  | [] => 0
  | f :: fs => sizeF f + sizeFList fs
end

mutual
/-- `isla.language.split_conjunction`: flattens nested
`ConjunctiveFormula` spines into the list of conjuncts. -/
def splitConjunction : Formula → List Formula
  | .conjF args => splitConjList args
  | f => [f]

def splitConjList : List Formula → List Formula
  | [] => []
  | f :: fs => splitConjunction f ++ splitConjList fs
end

mutual
/-- `isla.language.split_disjunction`. -/
def splitDisjunction : Formula → List Formula
  | .disjF args => splitDisjList args
  | f => [f]

def splitDisjList : List Formula → List Formula
  | [] => []
  | f :: fs => splitDisjunction f ++ splitDisjList fs
end

theorem sizeF_pos (f : Formula) : 1 ≤ sizeF f := by
  cases f <;> simp [sizeF] <;> omega

theorem sizeFList_append (a b : List Formula) :
    sizeFList (a ++ b) = sizeFList a + sizeFList b := by
  induction a with
  | nil => simp [sizeFList]
  | cons f fs ih => simp [sizeFList, ih]; omega

mutual
theorem splitConj_size_le (f : Formula) :
    sizeFList (splitConjunction f) ≤ sizeF f := by
  cases f with
  | conjF args =>
    have := splitConjList_size_le args
    simp only [splitConjunction, sizeF]
    omega
  | _ => simp [splitConjunction, sizeFList, sizeF]

theorem splitConjList_size_le (fs : List Formula) :
    sizeFList (splitConjList fs) ≤ sizeFList fs := by
  cases fs with
  | nil => simp [splitConjList]
  | cons f fs' =>
    have h1 := splitConj_size_le f
    have h2 := splitConjList_size_le fs'
    simp only [splitConjList, sizeFList, sizeFList_append]
    omega
end

theorem splitConj_size_conj (args : List Formula) :
    sizeFList (splitConjunction (.conjF args)) + 2 ≤ sizeF (.conjF args) := by
  have := splitConjList_size_le args
  simp only [splitConjunction, sizeF]
  omega

mutual
theorem splitDisj_size_le (f : Formula) :
    sizeFList (splitDisjunction f) ≤ sizeF f := by
  cases f with
  | disjF args =>
    have := splitDisjList_size_le args
    simp only [splitDisjunction, sizeF]
    omega
  | _ => simp [splitDisjunction, sizeFList, sizeF]

theorem splitDisjList_size_le (fs : List Formula) :
    sizeFList (splitDisjList fs) ≤ sizeFList fs := by
  cases fs with
  | nil => simp [splitDisjList]
  | cons f fs' =>
    have h1 := splitDisj_size_le f
    have h2 := splitDisjList_size_le fs'
    simp only [splitDisjList, sizeFList, sizeFList_append]
    omega
end

theorem splitDisj_size_disj (args : List Formula) :
    sizeFList (splitDisjunction (.disjF args)) + 2 ≤ sizeF (.disjF args) := by
  have := splitDisjList_size_le args
  simp only [splitDisjunction, sizeF]
  omega

/-- Python `dict.__eq__` on the `substitutions` maps of SMT formulas:
the two association lists denote equal dicts — every key of either list
is bound (to `==`-equal trees, tree `__eq__` being structural equality
of `DTree`) in both.  Keys are unique in every dict the source builds,
so first-binding lookup is the dict's value. -/
def substsEq (a b : List (Var × DTree)) : Bool :=
  a.all (fun kv => alistGet b kv.1 = alistGet a kv.1) &&
  b.all (fun kv => alistGet a kv.1 = alistGet b kv.1)

/-- Python `==` on `in_variable` slots (a `Variable` never equals a
`DerivationTree`; trees compare by `__eq__` = structural equality). -/
def vortEq (a b : VarOrTree) : Bool := a = b

/-- Python `==` on optional bind expressions. -/
def obeEq : Option BindExpr → Option BindExpr → Bool
  | none, none => true
  | some x, some y => beEq x y
  | _, _ => false

mutual
/--
Python `==` on formulas (`Formula.__eq__` of the respective class, left
operand dispatch):  SMT leaves compare expression and substitutions;
predicate formulas compare predicate and arguments; negations compare
their argument; conjunctions/disjunctions compare their *flattened*
conjunct/disjunct lists (`split_conjunction` / `split_disjunction`);
quantifiers compare `(bound_variable, in_variable, inner, bind_expr)` —
`already_matched` and the forall `id` are *not* part of equality.
-/
def pyEq (a b : Formula) : Bool :=
  match a, b with
  | .smt e _ _ s _, .smt e' _ _ s' _ => e = e' && substsEq s s'
  | .smt _ _ _ _ _, _ => false
  | .structPred p args, .structPred p' args' => p = p' && args = args'
  | .structPred _ _, _ => false
  | .semPred p args _, .semPred p' args' _ => p = p' && args = args'
  | .semPred _ _ _, _ => false
  | .negF x, .negF y => pyEq x y
  | .negF _, _ => false
  | .conjF args, b => listPyEq (splitConjunction (.conjF args)) (splitConjunction b)
  | .disjF args, b => listPyEq (splitDisjunction (.disjF args)) (splitDisjunction b)
  | .forallF bv iv inn be _ _, .forallF bv' iv' inn' be' _ _ =>
    bv = bv' && vortEq iv iv' && pyEq inn inn' && obeEq be be'
  | .forallF _ _ _ _ _ _, _ => false
  | .existsF bv iv inn be, .existsF bv' iv' inn' be' =>
    bv = bv' && vortEq iv iv' && pyEq inn inn' && obeEq be be'
  | .existsF _ _ _ _, _ => false
  | .forallIntF bv inn, .forallIntF bv' inn' => bv = bv' && pyEq inn inn'
  | .forallIntF _ _, _ => false
  | .existsIntF bv inn, .existsIntF bv' inn' => bv = bv' && pyEq inn inn'
  | .existsIntF _ _, _ => false
termination_by sizeF a + sizeF b
decreasing_by
  all_goals simp only [sizeF]
  all_goals first
  | omega
  | (have h1 := splitConj_size_conj args
     have h2 := splitConj_size_le b
     simp only [sizeF] at h1
     omega)
  | (have h1 := splitDisj_size_disj args
     have h2 := splitDisj_size_le b
     simp only [sizeF] at h1
     omega)

def listPyEq : List Formula → List Formula → Bool
  | [], [] => true
  | x :: xs, y :: ys => pyEq x y && listPyEq xs ys
  | _, _ => false
termination_by xs ys => sizeFList xs + sizeFList ys + 1
decreasing_by
  all_goals simp only [sizeF, sizeFList]
  all_goals (try (have h1 := sizeF_pos x; have h2 := sizeF_pos y)); omega
end

/-- `isinstance(f, SMTFormula) and f.is_false`. -/
def isSmtFalse : Formula → Bool
  | .smt e _ _ _ _ => z3ExprIsFalse e
  | _ => false

/-- `isinstance(f, SMTFormula) and f.is_true`. -/
def isSmtTrue : Formula → Bool
  | .smt e _ _ _ _ => z3ExprIsTrue e
  | _ => false

/-- `Formula.__and__`: collapses equal operands, false/true SMT literals
and complementary pairs; otherwise builds a binary `ConjunctiveFormula`. -/
def pyAnd (a b : Formula) : Formula :=
  if pyEq a b then a
  else if isSmtFalse a then a
  else if isSmtFalse b then b
  else if isSmtTrue a then b
  else if isSmtTrue b then a
  else if (match a with | .negF x => pyEq x b | _ => false) then smtFalseF
  else if (match b with | .negF y => pyEq y a | _ => false) then smtFalseF
  else .conjF [a, b]

/-- `Formula.__or__`. -/
def pyOr (a b : Formula) : Formula :=
  if pyEq a b then a
  else if isSmtTrue a then a
  else if isSmtTrue b then b
  else if isSmtFalse a then b
  else if isSmtFalse b then a
  else if (match a with | .negF x => pyEq x b | _ => false) then smtTrueF
  else if (match b with | .negF y => pyEq y a | _ => false) then smtTrueF
  else .disjF [a, b]

/-- `functools.reduce(lambda a, b: a & b, fs)`.  The source raises on an
empty list; every call site passes the argument list of a
`ConjunctiveFormula`, which has at least two elements, so the `[]` case
is unreachable (totalised with the true literal). -/
def pyReduceAnd : List Formula → Formula
  | [] => smtTrueF
  | x :: xs => xs.foldl pyAnd x

/-- `functools.reduce(lambda a, b: a | b, fs)` (dually totalised). -/
def pyReduceOr : List Formula → Formula
  | [] => smtFalseF
  | x :: xs => xs.foldl pyOr x

mutual
/-- `Formula.__neg__` (`SMTFormula` overrides it with the SMT adapter's
push-in; quantifiers swap and recurse; propositional combinators apply
De Morgan via the smart constructors; predicate formulas are wrapped in
`NegatedFormula`).  Negating an `ExistsFormula` builds a `ForallFormula`
without an explicit id, so the forall-id counter is threaded. -/
def pyNeg : Formula → Nat → Formula × Nat
  | .smt e fv iv s ae, c => (.smt (z3PushInNegations e true) fv iv s ae, c)
  | .negF x, c => (x, c)
  | .conjF args, c =>
    let (ns, c') := pyNegList args c
    (pyReduceOr ns, c')
  | .disjF args, c =>
    let (ns, c') := pyNegList args c
    (pyReduceAnd ns, c')
  | .forallF bv iv inn be _ _, c =>
    let (ni, c') := pyNeg inn c
    (.existsF bv iv ni be, c')
  | .existsF bv iv inn be, c =>
    let (ni, c') := pyNeg inn c
    (.forallF bv iv ni be [] c', c' + 1)
  | .forallIntF bv inn, c =>
    let (ni, c') := pyNeg inn c
    (.existsIntF bv ni, c')
  | .existsIntF bv inn, c =>
    let (ni, c') := pyNeg inn c
    (.forallIntF bv ni, c')
  | .structPred p args, c => (.negF (.structPred p args), c)
  | .semPred p args o, c => (.negF (.semPred p args o), c)

def pyNegList : List Formula → Nat → List Formula × Nat
  | [], c => ([], c)
  | f :: fs, c =>
    let (nf, c') := pyNeg f c
    let (nfs, c'') := pyNegList fs c'
    (nf :: nfs, c'')
end

theorem sizeF_mem_le {f : Formula} {fs : List Formula} (h : f ∈ fs) :
    sizeF f ≤ sizeFList fs := by
  induction fs with
  | nil => cases h
  | cons g gs ih =>
    rcases List.mem_cons.mp h with rfl | hm
    · simp only [sizeFList]; omega
    · have := ih hm
      simp only [sizeFList]
      omega

/-- The non-recursive `bound_variables()` of a tree quantifier:
`OrderedSet([bound_variable]) | bind_expression.bound_variables()`. -/
def qBoundVars (bv : Var) (be : Option BindExpr) : List Var :=
  oUnion [bv] (match be with | none => [] | some b => beBoundVariables b)

mutual
/-- `Formula.free_variables()` per variant. -/
def fvF : Formula → List Var
  | .smt _ fv _ _ _ => fv
  | .structPred _ args =>
    odedup (args.filterMap (fun | .var v => some v | _ => none))
  | .semPred _ args _ =>
    odedup (args.filterMap (fun | .var v => some v | _ => none))
  | .negF x => fvFList [] [x]
  | .conjF args => fvFList [] args
  | .disjF args => fvFList [] args
  | .forallF bv iv inner be _ _ =>
    oDiff (oUnion (match iv with | .var v => [v] | .tree _ => []) (fvF inner))
      (qBoundVars bv be)
  | .existsF bv iv inner be =>
    oDiff (oUnion (match iv with | .var v => [v] | .tree _ => []) (fvF inner))
      (qBoundVars bv be)
  | .forallIntF bv inner => oDiff (fvF inner) [bv]
  | .existsIntF bv inner => oDiff (fvF inner) [bv]
termination_by f => 2 * sizeF f
decreasing_by
  all_goals simp only [sizeF, sizeFList]
  all_goals try omega

/-- The accumulating union `result |= arg.free_variables()` of
`PropositionalCombinator.free_variables`. -/
def fvFList (acc : List Var) : List Formula → List Var
  | [] => acc
  | f :: fs => fvFList (oUnion acc (fvF f)) fs
termination_by fs => 2 * sizeFList fs + 1
decreasing_by
  all_goals simp only [sizeFList]
  all_goals (have haux := sizeF_pos f; omega)
end

/-- `in_variable` handling of `substitute_variables` (a tree
`in_variable` is never a `Variable` key). -/
def vortSubstV (iv : VarOrTree) (m : List (Var × Var)) : VarOrTree :=
  match iv with
  | .var v => .var ((alistGet m v).getD v)
  | .tree t => .tree t

/-- `Formula.substitute_variables(subst_map)` per variant.  Conjunctions
and disjunctions rebuild via the smart `&`/`|` (the source reduces with
them), SMT leaves substitute symbol-for-symbol. -/
def substVarsF : Formula → List (Var × Var) → Formula
  | .smt e fv iv s ae, m =>
    .smt (z3Subst e (m.map (fun kv => (kv.1.name, Z3Str.strVar kv.2.name))))
      (odedup (fv.map (fun v => (alistGet m v).getD v))) iv s ae
  | .structPred p args, m =>
    .structPred p (args.map (fun
      | .var v => .var ((alistGet m v).getD v)
      | other => other))
  | .semPred p args o, m =>
    .semPred p (args.map (fun
      | .var v => .var ((alistGet m v).getD v)
      | other => other)) o
  | .negF x, m => .negF (substVarsF x m)
  | .conjF args, m =>
    pyReduceAnd (args.attach.map (fun af => substVarsF af.1 m))
  | .disjF args, m =>
    pyReduceOr (args.attach.map (fun af => substVarsF af.1 m))
  | .forallF bv iv inner be am fid, m =>
    .forallF ((alistGet m bv).getD bv) (vortSubstV iv m) (substVarsF inner m)
      (be.map (beSubstVars · m)) am fid
  | .existsF bv iv inner be, m =>
    .existsF ((alistGet m bv).getD bv) (vortSubstV iv m) (substVarsF inner m)
      (be.map (beSubstVars · m))
  | .forallIntF bv inner, m =>
    .forallIntF ((alistGet m bv).getD bv) (substVarsF inner m)
  | .existsIntF bv inner, m =>
    .existsIntF ((alistGet m bv).getD bv) (substVarsF inner m)
termination_by f _ => sizeF f
decreasing_by
  all_goals simp only [sizeF]
  all_goals first
  | omega
  | (have haux := sizeF_mem_le af.2; simp only [sizeF] at *; omega)

/-- A substitution map for `substitute_expressions`: keys are variables
or trees, values are trees. -/
abbrev SubstM := List (VarOrTree × DTree)

/-- Lookup of a `Variable` key in a `substitute_expressions` map. -/
def smLookupVar (m : SubstM) (v : Var) : Option DTree :=
  (m.find? (fun kv => kv.1 = VarOrTree.var v)).map (·.2)

/-- Lookup of a `DerivationTree` key (matched by `__eq__`, i.e.
structural equality including ids). -/
def smLookupTree (m : SubstM) (t : DTree) : Option DTree :=
  (m.find? (fun kv => kv.1 = VarOrTree.tree t)).map (·.2)

/-- The `in_variable` handling shared by
`ForallFormula.substitute_expressions` and
`ExistsFormula.substitute_expressions`: a direct hit in the map wins,
otherwise a tree `in_variable` is substituted recursively. -/
def substInVar (iv : VarOrTree) (m : SubstM) (c : Nat) : VarOrTree × Nat :=
  match (m.find? (fun kv => kv.1 = iv)).map (·.2) with
  | some t => (.tree t, c)
  | none =>
    match iv with
    | .tree t =>
      let (t', c') := substituteTree t m c
      (.tree t', c')
    | .var v => (.var v, c)

/-- `StructuralPredicateFormula.substitute_expressions` argument
processing (threading the tree-id counter through `tree.substitute`). -/
def substPArgsStruct : List PArg → SubstM → Nat → List PArg × Nat
  | [], _, c => ([], c)
  | arg :: rest, m, c =>
    let (arg', c1) :=
      match arg with
      | .var v => (((smLookupVar m v).map .tree).getD (.var v), c)
      | .str s0 => (.str s0, c)
      | .int n => (.int n, c)
      | .tree t =>
        match smLookupTree m t with
        | some r => (.tree r, c)
        | none =>
          let (t', c') := substituteTree t m c
          (.tree t', c')
    let (rest', c2) := substPArgsStruct rest m c1
    (arg' :: rest', c2)

/-- The `{tree.id: repl}` dict of
`SemanticPredicateFormula.substitute_expressions`. -/
def smTreeIdMap (m : SubstM) : List (Nat × DTree) :=
  (m.filterMap (fun kv => match kv.1 with
    | .tree k => some (k.id, kv.2)
    | _ => none)).foldl (fun acc kv => alistInsert acc kv.1 kv.2) []

/-- `SemanticPredicateFormula.substitute_expressions` argument
processing: tree arguments are replaced when their *id* is a key. -/
def substPArgsSem : List PArg → SubstM → Nat → List PArg × Nat
  | [], _, c => ([], c)
  | arg :: rest, m, c =>
    let (arg', c1) :=
      match arg with
      | .str s0 => (.str s0, c)
      | .int n => (.int n, c)
      | .var v => (((smLookupVar m v).map .tree).getD (.var v), c)
      | .tree t =>
        match alistGet (smTreeIdMap m) t.id with
        | some r => (.tree r, c)
        | none =>
          let (t', c') := substituteTree t m c
          (.tree t', c')
    let (rest', c2) := substPArgsSem rest m c1
    (arg' :: rest', c2)

/--
`SMTFormula.substitute_expressions`: restrict the map to tree keys
occurring in (or inside) current substitution values and to variable
keys among the free variables; update the deferred substitutions; split
off the complete (closed) ones and substitute them into the expression
as string literals; recompute instantiated and free variables; if the
formula became ground and `auto_eval` is set, evaluate it to a boolean
literal via the adapter's validity check.
-/
def substSMT (e : Z3Expr) (fv iv : List Var) (s : List (Var × DTree))
    (ae : Bool) (m : SubstM) (c : Nat) : Formula × Nat :=
  let treeSubstMap : SubstM := m.filter (fun kv =>
    match kv.1 with
    | .tree k =>
      s.any (fun vs => vs.2 = k) || s.any (fun vs => (findNode vs.2 k.id).isSome)
    | _ => false)
  let varSubstMap : List (Var × DTree) := m.filterMap (fun kv =>
    match kv.1 with
    | .var v => if v ∈ fv then some (v, kv.2) else none
    | _ => none)
  let (updated, c') := updateSubsts s treeSubstMap c
  let merged := varSubstMap.foldl (fun acc kv => alistInsert acc kv.1 kv.2) updated
  let complete := merged.filter (fun kv => isComplete kv.2)
  let incomplete := merged.filter (fun kv => !isComplete kv.2)
  let newInst := odedup ((oUnion iv (odedup (incomplete.map (·.1)))).filter
    (fun v => (alistGet complete v).isNone))
  let newExpr := z3Subst e (complete.map (fun kv => (kv.1.name, Z3Str.strVal (treeStr kv.2))))
  let newFree := fv.filter (fun v => (alistGet varSubstMap v).isNone)
  if ae && newFree.length + newInst.length = 0 then
    (.smt (.boolVal (threeValuedToBool (z3IsValid newExpr))) [] [] [] true, c')
  else
    (.smt newExpr (odedup newFree) newInst incomplete ae, c')
where
  updateSubsts : List (Var × DTree) → SubstM → Nat →
      List (Var × DTree) × Nat
    | [], _, c => ([], c)
    | (v, t) :: rest, tm, c =>
      let (t', c1) := substituteTree t tm c
      let (rest', c2) := updateSubsts rest tm c1
      ((v, t') :: rest', c2)

mutual
/-- `Formula.substitute_expressions(subst_map)` per variant.  The
quantifier cases contain the simplification this development studies:
a tree quantifier whose bound variable is no longer free in the
substituted inner formula is *dropped* — unconditionally requiring
`bind_expression is None` for `forall`, but for `exists` also when no
bind-expression variable occurs free in the substituted inner formula
(in which case the retained branch re-substitutes the inner formula a
second time). -/
def substEF : Formula → SubstM → Nat → Formula × Nat
  | .smt e fv iv s ae, m, c => substSMT e fv iv s ae m c
  | .structPred p args, m, c =>
    let (args', c') := substPArgsStruct args m c
    (.structPred p args', c')
  | .semPred p args o, m, c =>
    let (args', c') := substPArgsSem args m c
    (.semPred p args' o, c')
  | .negF x, m, c =>
    let (x', c') := substEF x m c
    (.negF x', c')
  | .conjF args, m, c =>
    let (fs, c') := substEFList args m c
    (pyReduceAnd fs, c')
  | .disjF args, m, c =>
    let (fs, c') := substEFList args m c
    (pyReduceOr fs, c')
  | .forallF bv iv inner be am fid, m, c =>
    let (iv', c1) := substInVar iv m c
    let (inner', c2) := substEF inner m c1
    if bv ∉ fvF inner' ∧ be = none then (inner', c2)
    else (.forallF bv iv' inner' be am fid, c2)
  | .existsF bv iv inner be, m, c =>
    let (iv', c1) := substInVar iv m c
    let (inner', c2) := substEF inner m c1
    if decide (bv ∉ fvF inner') &&
        (match be with
         | none => true
         | some b => (beBoundVariables b).all (fun v => decide (v ∉ fvF inner'))) then
      (inner', c2)
    else
      let (inner2, c3) := substEF inner m c2
      (.existsF bv iv' inner2 be, c3)
  | .forallIntF bv inner, m, c =>
    let (i', c') := substEF inner m c
    (.forallIntF bv i', c')
  | .existsIntF bv inner, m, c =>
    let (i', c') := substEF inner m c
    (.existsIntF bv i', c')

def substEFList : List Formula → SubstM → Nat → List Formula × Nat
  | [], _, c => ([], c)
  | f :: fs, m, c =>
    let (f', c') := substEF f m c
    let (fs', c'') := substEFList fs m c'
    (f' :: fs', c'')
end

mutual
/--
`isla.language.convert_to_nnf(formula, negate)`: negations are flipped
into the `negate` flag; conjunctions/disjunctions recurse into their
arguments and rebuild (dualised when negated) via the smart
constructors; predicate leaves are negated with `__neg__`; SMT leaves
delegate to the adapter's push-in and keep only the variables and
substitutions still referenced by the rewritten expression; quantifiers
swap when negated — and their inner formula is recursively converted
**only when `negate` is true** (otherwise it is passed through
unchanged).  Rebuilding a `ForallFormula` draws a fresh formula id from
the (threaded) counter.
-/
def convertToNNF : Formula → Bool → Nat → Formula × Nat
  | .negF x, negate, c => convertToNNF x (!negate) c
  | .conjF args, negate, c =>
    let (rs, c') := nnfList args negate c
    (if negate then pyReduceOr rs else pyReduceAnd rs, c')
  | .disjF args, negate, c =>
    let (rs, c') := nnfList args negate c
    (if negate then pyReduceAnd rs else pyReduceOr rs, c')
  | .structPred p args, negate, c =>
    if negate then pyNeg (.structPred p args) c else (.structPred p args, c)
  | .semPred p args o, negate, c =>
    if negate then pyNeg (.semPred p args o) c else (.semPred p args o, c)
  | .smt e fv iv s ae, negate, c =>
    let e' := z3PushInNegations e negate
    let syms := getSymbols e'
    let fv' := fv.filter (fun v => v.name ∈ syms)
    let iv' := odedup (iv.filter (fun v => v.name ∈ syms))
    let s' := s.filter (fun kv => kv.1.name ∈ syms)
    (.smt e' (odedup fv') iv' s' ae, c)
  | .existsIntF bv inner, negate, c =>
    let (inner', c') := if negate then convertToNNF inner negate c else (inner, c)
    (if negate then .forallIntF bv inner' else .existsIntF bv inner', c')
  | .forallIntF bv inner, negate, c =>
    let (inner', c') := if negate then convertToNNF inner negate c else (inner, c)
    (if negate then .existsIntF bv inner' else .forallIntF bv inner', c')
  | .forallF bv iv inner be am _, negate, c =>
    let (inner', c') := if negate then convertToNNF inner negate c else (inner, c)
    if negate then (.existsF bv iv inner' be, c')
    else (.forallF bv iv inner' be am c', c' + 1)
  | .existsF bv iv inner be, negate, c =>
    let (inner', c') := if negate then convertToNNF inner negate c else (inner, c)
    if negate then (.forallF bv iv inner' be [] c', c' + 1)
    else (.existsF bv iv inner' be, c')

def nnfList : List Formula → Bool → Nat → List Formula × Nat
  | [], _, c => ([], c)
  | f :: fs, negate, c =>
    let (f', c') := convertToNNF f negate c
    let (fs', c'') := nnfList fs negate c'
    (f' :: fs', c'')
end

/-- Modelled from the spec (doc comment in the source):
`isla.helpers.remove_subtrees_for_prefix` — drops the entries whose path
lies at or below `path` (`[(p, s) for p, s in subtrees if not
p[:len(path)] == path]`). -/
def removeSubtreesForPrefix (subtrees : List (TPath × DTree)) (path : TPath) :
    List (TPath × DTree) :=
  subtrees.filter (fun ps => decide (ps.1.take path.length ≠ path))

theorem removeSubtrees_length_le (subtrees : List (TPath × DTree)) (p : TPath) :
    (removeSubtreesForPrefix subtrees p).length ≤ subtrees.length :=
  List.length_filter_le _ _

/--
`BindExpression.match_without_backtracking` (the `pop`-driven forward
pass; `isla.helpers.pop` removes and returns the head of a list).  State:
the remaining subtrees, the current element (`none` once all bound
variables are consumed), the pending bound variables, the
insertion-ordered result dict and the dummy-variable counter.  A
too-long terminal dummy is split: its consumed prefix becomes a fresh
dummy matched now, the remainder is pushed onto the pending list — the
split persists even if the subsequent match test fails.
-/
def mwbGo (excluded : List (TPath × Var)) :
    List (TPath × DTree) → Option Var → List Var →
    List (Var × (TPath × DTree)) → Nat →
    Bool × List (Var × (TPath × DTree)) × Nat
  | [], curr, _, res, c => (curr.isNone, res, c)
  | _ :: _, none, _, res, c => (false, res, c)
  | (path, subtree) :: rest, some cur, pending, res, c =>
    let subtreeStr := treeStr subtree
    let (cur', pending', c') :=
      if cur.kind = .dummy && !isNonterminal cur.nType &&
          subtreeStr.length < cur.nType.length &&
          cur.nType.startsWith subtreeStr then
        let (remainderVar, c1) := mkDummy (cur.nType.drop subtreeStr.length) c
        let (nextVar, c2) := mkDummy subtreeStr c1
        (nextVar, remainderVar :: pending, c2)
      else (cur, pending, c)
    if decide ((path, cur') ∉ excluded) &&
        (subtree.value = cur'.nType ||
          (cur'.kind = .dummy && !isNonterminal cur'.nType &&
            subtreeStr = cur'.nType)) then
      mwbGo excluded (removeSubtreesForPrefix rest path) pending'.head?
        (pending'.tail) (alistInsert res cur' (path, subtree)) c'
    else
      mwbGo excluded rest (some cur') pending' res c'
termination_by subtrees _ _ _ _ => subtrees.length
decreasing_by
  · have := removeSubtrees_length_le rest path
    simp only [List.length_cons]
    omega
  · simp only [List.length_cons]
    omega

/-- One run of the forward pass as `match_with_backtracking` performs
it: pop the first bound variable into `curr_elem`, start with an empty
result dict. -/
def mwbRun (subtrees : List (TPath × DTree)) (bvs : List Var)
    (excluded : List (TPath × Var)) (c : Nat) :
    Bool × List (Var × (TPath × DTree)) × Nat :=
  match bvs with
  | [] => (false, [], c)
  | b :: rest => mwbGo excluded subtrees (some b) rest [] c

/-- `itertools.combinations(l, k)` in itertools order. -/
def combinationsK {α : Type} : Nat → List α → List (List α)
  | 0, _ => [[]]
  | _ + 1, [] => []
  | k + 1, x :: xs =>
    (combinationsK k xs).map (x :: ·) ++ combinationsK (k + 1) xs

/-- `itertools.chain.from_iterable(combinations(items, k) for k in
range(1, n + 1))`: all non-empty combinations, smallest first. -/
def allCombinations {α : Type} (l : List α) : List (List α) :=
  (List.range l.length).flatMap (fun k => combinationsK (k + 1) l)

/--
`BindExpression.match_with_backtracking`.  With no bound variables the
result is `None`.  Otherwise the forward pass runs once; on failure
(and only when called with no exclusions) the partial result dict is
inverted into a `{path: variable}` dict and every non-empty combination
of its items, smallest first, is retried as an exclusion set.  Since
those recursive calls carry a non-empty exclusion set, they cannot
backtrack again — the recursion depth is at most two, and the inner
call is exactly a plain forward pass (unfolded here).
-/
def matchWithBacktracking (subtrees : List (TPath × DTree)) (bvs : List Var)
    (excluded : List (TPath × Var)) (c : Nat) :
    Option (List (Var × (TPath × DTree))) × Nat :=
  match bvs with
  | [] => (none, c)
  | _ :: _ =>
    let (ok, res, c') := mwbRun subtrees bvs excluded c
    if ok then (some res, c')
    else if excluded.isEmpty then
      let inverted := res.foldl (fun acc kv => alistInsert acc kv.2.1 kv.1) []
      tryExclusions (allCombinations inverted) subtrees bvs c'
    else (none, c')
where
  tryExclusions : List (List (TPath × Var)) → List (TPath × DTree) →
      List Var → Nat → Option (List (Var × (TPath × DTree))) × Nat
    | [], _, _, c => (none, c)
    | ex :: more, subtrees, bvs, c =>
      let (ok, res, c') := mwbRun subtrees bvs ex c
      if ok then (some res, c')
      else tryExclusions more subtrees bvs c'

/-- The leaf entries of a path dict (`not subtree.children`: open leaves
and closed terminal leaves alike). -/
def leafEntries (paths : List (TPath × DTree)) : List (TPath × DTree) :=
  paths.filter (fun ps =>
    match ps.2.childrenOpt with
    | none => true
    | some [] => true
    | some (_ :: _) => false)

/--
`BindExpression.match(tree, grammar)`.  The enumeration of flattenings
(`flatten_bound_elements`) invokes the external grammar fuzzer and
Earley parser (out-of-scope collaborators per the spec), so the list of
flattened bound-element sequences is taken as a parameter here; the
source iterates it in `reversed` order, runs the backtracking matcher,
and accepts a match only if every leaf of the tree lies at or below some
matched path — otherwise the flattening is discarded and the next one
is tried.
-/
def bindMatch (combinations : List (List Var)) (tree : DTree) (c : Nat) :
    Option (List (Var × (TPath × DTree))) × Nat :=
  let paths := treePaths tree
  let leaves := leafEntries paths
  go combinations.reverse paths leaves c
where
  go : List (List Var) → List (TPath × DTree) → List (TPath × DTree) →
      Nat → Option (List (Var × (TPath × DTree))) × Nat
    | [], _, _, c => (none, c)
    | comb :: more, paths, leaves, c =>
      let (mr, c') := matchWithBacktracking paths comb [] c
      match mr with
      | none => go more paths leaves c'
      | some res =>
        if leaves.all (fun lp =>
            res.any (fun kv => kv.2.1 = lp.1.take kv.2.1.length)) then
          (some res, c')
        else go more paths leaves c'

/-- **C8 counterexample.**  `BindExpression()` with no arguments is *not*
rejected: the constructor runs to completion and yields a bind
expression with an empty `bound_elements` list (allocating no dummy
variables). -/
theorem bind_expression_empty_accepted_counterexample :
    (mkBindExpression [] 0).1.elems = [] ∧ (mkBindExpression [] 0).2 = 0 :=
  ⟨rfl, rfl⟩

/-- **C8 (amended).**  Constructing a `BindExpression` from the empty
argument sequence succeeds for every dummy-variable counter value,
producing the empty bind expression (no bound elements, no bound
variables, counter untouched). -/
theorem bind_expression_empty_constructor (c : Nat) :
    mkBindExpression [] c = (⟨[]⟩, c) ∧
    beBoundVariables (mkBindExpression [] c).1 = [] :=
  ⟨rfl, rfl⟩

mutual
theorem pyEq_refl : (f : Formula) → pyEq f f = true
  | .smt e fv iv sub ae => by simp [pyEq, substsEq]
  | .structPred p args => by simp [pyEq]
  | .semPred p args o => by simp [pyEq]
  | .negF x => by simp only [pyEq]; exact pyEq_refl x
  | .conjF args => by
    simp only [pyEq]
    exact listPyEq_refl (splitConjunction (.conjF args))
  | .disjF args => by
    simp only [pyEq]
    exact listPyEq_refl (splitDisjunction (.disjF args))
  | .forallF bv iv inn be am fid => by
    have := pyEq_refl inn
    cases be <;> simp_all [pyEq, vortEq, obeEq, beEq]
  | .existsF bv iv inn be => by
    have := pyEq_refl inn
    cases be <;> simp_all [pyEq, vortEq, obeEq, beEq]
  | .forallIntF bv inn => by
    have := pyEq_refl inn
    simp_all [pyEq]
  | .existsIntF bv inn => by
    have := pyEq_refl inn
    simp_all [pyEq]
termination_by f => sizeF f
decreasing_by
  all_goals simp only [sizeF]
  all_goals first
  | omega
  | (have haux := splitConj_size_conj args; simp only [sizeF] at haux; omega)
  | (have haux := splitDisj_size_disj args; simp only [sizeF] at haux; omega)

theorem listPyEq_refl : (l : List Formula) → listPyEq l l = true
  | [] => by simp [listPyEq]
  | x :: xs => by
    simp only [listPyEq, Bool.and_eq_true]
    exact ⟨pyEq_refl x, listPyEq_refl xs⟩
termination_by l => sizeFList l + 1
decreasing_by
  all_goals simp only [sizeFList]
  · omega
  · have := sizeF_pos x
    omega
end

/-- **C9.**  Structural equality of conjunctions/disjunctions ignores
the nesting of the binary combinators: `__eq__` on them *is* equality of
the flattened conjunct (disjunct) lists, and in particular
`(a ∧ b) ∧ c == a ∧ (b ∧ c)` and `(a ∨ b) ∨ c == a ∨ (b ∨ c)` for all
formulas. -/
theorem conjunction_eq_is_split_based :
    (∀ args args' : List Formula,
      pyEq (.conjF args) (.conjF args') =
        listPyEq (splitConjunction (.conjF args)) (splitConjunction (.conjF args'))) ∧
    (∀ args args' : List Formula,
      pyEq (.disjF args) (.disjF args') =
        listPyEq (splitDisjunction (.disjF args)) (splitDisjunction (.disjF args'))) ∧
    (∀ a b c : Formula,
      pyEq (.conjF [.conjF [a, b], c]) (.conjF [a, .conjF [b, c]]) = true) ∧
    (∀ a b c : Formula,
      pyEq (.disjF [.disjF [a, b], c]) (.disjF [a, .disjF [b, c]]) = true) := by
  refine ⟨fun args args' => by simp only [pyEq], fun args args' => by simp only [pyEq], ?_, ?_⟩
  · intro a b c
    simp only [pyEq]
    have h : splitConjunction (Formula.conjF [Formula.conjF [a, b], c]) =
        splitConjunction (Formula.conjF [a, Formula.conjF [b, c]]) := by
      simp [splitConjunction, splitConjList, List.append_assoc]
    rw [h]
    exact listPyEq_refl _
  · intro a b c
    simp only [pyEq]
    have h : splitDisjunction (Formula.disjF [Formula.disjF [a, b], c]) =
        splitDisjunction (Formula.disjF [a, Formula.disjF [b, c]]) := by
      simp [splitDisjunction, splitDisjList, List.append_assoc]
    rw [h]
    exact listPyEq_refl _

/-- Concrete variables and formulas used by the C2 theorems. -/
def vX : Var := ⟨.boundVar, "x", "<a>"⟩

def vY : Var := ⟨.boundVar, "y", "<b>"⟩

def startConst : Var := ⟨.constant, "start", "<start>"⟩

def predP : Formula := .structPred ⟨"p", 0⟩ []

def existsWithBind : Formula := .existsF vX (.var startConst) predP (some ⟨[.v vY]⟩)

/-- **C2 counterexample.**  An `ExistsFormula` with a bind expression
whose variables (here `y`) do not occur free in the inner formula:
`substitute_expressions` (even with the empty map) *drops* the
quantifier and returns the substituted inner formula, although the
claim demands retention whenever a bind expression is present. -/
theorem exists_bind_expression_dropped_counterexample :
    (substEF existsWithBind [] 0).1 = predP ∧
    (∀ bv iv inner be, (substEF existsWithBind [] 0).1 ≠ .existsF bv iv inner be) := by
  have hmain : substEF existsWithBind [] 0 = (predP, 0) := by
    simp [existsWithBind, substEF, substInVar, substPArgsStruct, fvF, predP,
      beBoundVariables, odedup, osAdd, vX, vY]
  refine ⟨by rw [hmain], ?_⟩
  intro bv iv inner be h
  rw [hmain] at h
  exact Formula.noConfusion h

/-- **C2 (amended).**  Behaviour of `substitute_expressions` on
quantifiers: writing `inner'` for the substituted inner formula (after
the `in_variable` substitution, whose counter it continues), a
`ForallFormula` is replaced by `inner'` iff its bound variable is not
free in `inner'` *and* it has no bind expression — with a bind
expression the universal quantifier is always retained.  An
`ExistsFormula` is replaced by `inner'` iff its bound variable is not
free in `inner'` and additionally no bind-expression variable is free in
`inner'`; it is retained (re-substituting the inner formula a second
time) as soon as some bind-expression variable occurs free. -/
theorem quantifier_elision_substitute_expressions (bv : Var) (iv : VarOrTree)
    (inner : Formula) (be : Option BindExpr) (am : List Nat) (fid : Nat)
    (m : SubstM) (c : Nat) :
    (bv ∉ fvF (substEF inner m (substInVar iv m c).2).1 → be = none →
      substEF (.forallF bv iv inner be am fid) m c =
        substEF inner m (substInVar iv m c).2) ∧
    (∀ b, be = some b →
      (substEF (.forallF bv iv inner be am fid) m c).1 =
        .forallF bv (substInVar iv m c).1
          (substEF inner m (substInVar iv m c).2).1 be am fid) ∧
    (bv ∈ fvF (substEF inner m (substInVar iv m c).2).1 →
      (substEF (.forallF bv iv inner be am fid) m c).1 =
        .forallF bv (substInVar iv m c).1
          (substEF inner m (substInVar iv m c).2).1 be am fid) ∧
    (bv ∉ fvF (substEF inner m (substInVar iv m c).2).1 →
      (∀ b, be = some b →
        ∀ v ∈ beBoundVariables b, v ∉ fvF (substEF inner m (substInVar iv m c).2).1) →
      substEF (.existsF bv iv inner be) m c =
        substEF inner m (substInVar iv m c).2) ∧
    (∀ b, be = some b →
      (∃ v ∈ beBoundVariables b, v ∈ fvF (substEF inner m (substInVar iv m c).2).1) →
      (substEF (.existsF bv iv inner be) m c).1 =
        .existsF bv (substInVar iv m c).1
          (substEF inner m (substEF inner m (substInVar iv m c).2).2).1 be) := by
  cases hsiv : substInVar iv m c with
  | mk iv' c1 =>
    dsimp only
    cases hsub : substEF inner m c1 with
    | mk inner' c2 =>
      dsimp only
      refine ⟨?_, ?_, ?_, ?_, ?_⟩
      · intro h1 h2
        subst h2
        simp only [substEF, hsiv, hsub]
        rw [if_pos ⟨h1, trivial⟩]
      · intro b hbe
        subst hbe
        simp only [substEF, hsiv, hsub]
        rw [if_neg (by simp)]
      · intro h1
        simp only [substEF, hsiv, hsub]
        rw [if_neg (fun hc => hc.1 h1)]
      · intro h1 h2
        cases be with
        | none =>
          simp only [substEF, hsiv, hsub]
          rw [if_pos (by simp [h1])]
        | some b =>
          simp only [substEF, hsiv, hsub]
          rw [if_pos ?_]
          simp only [Bool.and_eq_true, List.all_eq_true, decide_eq_true_eq]
          exact ⟨by simpa using h1, fun v hv => h2 b rfl v hv⟩
      · intro b hbe hex
        subst hbe
        cases hsub2 : substEF inner m c2 with
        | mk inner2 c3 =>
          simp only [substEF, hsiv, hsub, hsub2]
          rw [if_neg ?_]
          intro hcond
          rw [Bool.and_eq_true] at hcond
          obtain ⟨v, hv, hvf⟩ := hex
          have := List.all_eq_true.mp hcond.2 v hv
          rw [decide_eq_true_eq] at this
          exact this hvf

/-- Witness for the amended C2: a universal quantifier with a bind
expression whose variable is unused is retained by
`substitute_expressions` with the empty map. -/
theorem quantifier_elision_substitute_expressions_witness :
    (substEF (.forallF vX (.var startConst) predP (some ⟨[.v vY]⟩) [] 0) [] 0).1 =
      .forallF vX (.var startConst) predP (some ⟨[.v vY]⟩) [] 0 := by
  have h := (quantifier_elision_substitute_expressions vX (.var startConst)
    predP (some ⟨[.v vY]⟩) [] 0 [] 0).2.1 ⟨[.v vY]⟩ rfl
  exact h

theorem bindMatch_go_covers (l : List (List Var))
    (paths leaves : List (TPath × DTree)) (c : Nat)
    (res : List (Var × (TPath × DTree))) (c' : Nat)
    (h : bindMatch.go l paths leaves c = (some res, c')) :
    leaves.all (fun lp =>
      res.any (fun kv => kv.2.1 = lp.1.take kv.2.1.length)) = true := by
  induction l generalizing c with
  | nil => simp [bindMatch.go] at h
  | cons comb more ih =>
    rw [bindMatch.go] at h
    cases hmw : matchWithBacktracking paths comb [] c with
    | mk mr c'' =>
      rw [hmw] at h
      cases mr with
      | none => exact ih c'' h
      | some r =>
        dsimp only at h
        split at h
        · obtain ⟨hres, _⟩ := Prod.mk.injEq .. ▸ h
          cases h
          assumption
        · exact ih c'' h

/-- **C4.**  Whenever `BindExpression.match` (over *any* list of
flattened bound-element sequences — their enumeration involves the
external grammar fuzzer and parser) returns a variable-to-(path,
subtree) map, every leaf of the matched tree lies at or below some
matched path; a flattening whose match leaves some leaf uncovered is
discarded and the next flattening is tried. -/
theorem bind_match_covers_all_leaves (combs : List (List Var)) (tree : DTree)
    (c : Nat) (res : List (Var × (TPath × DTree))) (c' : Nat)
    (h : bindMatch combs tree c = (some res, c')) :
    ∀ lp ∈ leafEntries (treePaths tree),
      ∃ kv ∈ res, kv.2.1 = lp.1.take kv.2.1.length := by
  have hall := bindMatch_go_covers combs.reverse (treePaths tree)
    (leafEntries (treePaths tree)) c res c' (by rw [bindMatch] at h; exact h)
  intro lp hlp
  have := List.all_eq_true.mp hall lp hlp
  obtain ⟨kv, hkv, hdec⟩ := List.any_eq_true.mp this
  exact ⟨kv, hkv, by simpa using hdec⟩

/-- A small concrete tree for the C4 witness. -/
def wTree : DTree := .node "<s>" (some [.node "a" (some []) 2]) 1

/-- The bound variable of the C4 witness combination. -/
def wVar : Var := ⟨.boundVar, "w", "<s>"⟩

/-- Witness for C4: a successful match on `wTree` binding `wVar` to the
root covers the single leaf `[0]`. -/
theorem bind_match_covers_all_leaves_witness :
    ∃ kv ∈ [(wVar, (([] : TPath), wTree))],
      kv.2.1 = ([0] : TPath).take kv.2.1.length := by
  have hrun : bindMatch [[wVar]] wTree 0 = (some [(wVar, ([], wTree))], 0) := by
    simp [bindMatch, bindMatch.go, matchWithBacktracking, mwbRun, mwbGo,
      treePaths, treePathsList, leafEntries, wTree, wVar, treeStr,
      treeToString, isNonterminal, removeSubtreesForPrefix, alistInsert,
      DTree.value, DTree.childrenOpt]
  have hmem : (([0] : TPath), DTree.node "a" (some []) 2) ∈
      leafEntries (treePaths wTree) := by
    simp [leafEntries, treePaths, treePathsList, wTree, DTree.childrenOpt]
  exact bind_match_covers_all_leaves [[wVar]] wTree 0 [(wVar, ([], wTree))] 0
    hrun ([0], DTree.node "a" (some []) 2) hmem

/-- A decimal digit character. -/
def decDigitChar : Nat → Char
  | 0 => '0' | 1 => '1' | 2 => '2' | 3 => '3' | 4 => '4'
  | 5 => '5' | 6 => '6' | 7 => '7' | 8 => '8' | 9 => '9'
  | _ => '*'

/-- Numeric value of a digit character. -/
def charVal (c : Char) : Nat := c.toNat - '0'.toNat

/-- The decimal digit list of a natural number (most significant
first) — the rendering Python's f-string interpolation produces for the
numeric suffix of a fresh variable name. -/
def decDigits (n : Nat) : List Char :=
  if _h : n < 10 then [decDigitChar n]
  else decDigits (n / 10) ++ [decDigitChar (n % 10)]
decreasing_by exact Nat.div_lt_self (by omega) (by omega)

/-- Decimal rendering of a natural number. -/
def natToStr (n : Nat) : String := String.mk (decDigits n)

theorem charVal_decDigitChar {d : Nat} (h : d < 10) :
    charVal (decDigitChar d) = d := by
  interval_cases d <;> rfl

/-- Positional decoding of a digit list. -/
def decodeDigits (l : List Char) : Nat :=
  l.foldl (fun a c => 10 * a + charVal c) 0

theorem decodeDigits_append_singleton (l : List Char) (c : Char) :
    decodeDigits (l ++ [c]) = 10 * decodeDigits l + charVal c := by
  simp [decodeDigits, List.foldl_append]

theorem decode_decDigits (n : Nat) : decodeDigits (decDigits n) = n := by
  induction n using Nat.strong_induction_on with
  | _ n ih =>
    rw [decDigits]
    split
    · rename_i h10
      simp only [decodeDigits, List.foldl_cons, List.foldl_nil]
      rw [charVal_decDigitChar h10]
      omega
    · rename_i h10
      have hlt : n / 10 < n := Nat.div_lt_self (by omega) (by omega)
      rw [decodeDigits_append_singleton, ih _ hlt,
        charVal_decDigitChar (Nat.mod_lt _ (by omega))]
      omega

theorem decDigits_injective {a b : Nat} (h : decDigits a = decDigits b) :
    a = b := by
  have := congrArg decodeDigits h
  rwa [decode_decDigits, decode_decDigits] at this

/-- The candidate fresh name `f"{base}_{idx}"`. -/
def freshCand (base : String) (k : Nat) : String :=
  base ++ "_" ++ natToStr k

theorem freshCand_injective (base : String) :
    Function.Injective (freshCand base) := by
  intro a b h
  have hd := congrArg String.data h
  simp only [freshCand, String.data_append, List.append_assoc] at hd
  have h1 := List.append_cancel_left hd
  have h2 := List.append_cancel_left h1
  exact decDigits_injective h2

/-- The `while f"{name}_{idx}" in used: idx += 1` loop of
`ensure_unique_bound_variables.fresh_vars`, searching the first index
whose candidate name is unused.  Fuel `|used| + 1` always suffices (the
candidates are pairwise distinct, see `pyFreshIdxGo_avoids`), so the
fuelled loop computes exactly the Python loop's result. -/
def pyFreshIdxGo (base : String) (used : List String) : Nat → Nat → Nat
  | 0, k => k
  | fuel + 1, k =>
    if freshCand base k ∈ used then pyFreshIdxGo base used fuel (k + 1) else k

open Classical in
theorem pyFreshIdxGo_avoids (base : String) (used : List String) :
    ∀ (fuel k : Nat),
      (used.toFinset.filter
        (fun s => ∃ j, k ≤ j ∧ s = freshCand base j)).card < fuel →
      freshCand base (pyFreshIdxGo base used fuel k) ∉ used := by
  intro fuel
  induction fuel with
  | zero => intro k h; omega
  | succ f ih =>
    intro k h
    simp only [pyFreshIdxGo]
    by_cases hm : freshCand base k ∈ used
    · rw [if_pos hm]
      apply ih (k + 1)
      have hmemk : freshCand base k ∈ used.toFinset.filter
          (fun s => ∃ j, k ≤ j ∧ s = freshCand base j) := by
        rw [Finset.mem_filter]
        exact ⟨List.mem_toFinset.mpr hm, k, le_refl k, rfl⟩
      have hnot : freshCand base k ∉ used.toFinset.filter
          (fun s => ∃ j, k + 1 ≤ j ∧ s = freshCand base j) := by
        rw [Finset.mem_filter]
        rintro ⟨-, j, hj, hcand⟩
        have := freshCand_injective base hcand
        omega
      have hsub : used.toFinset.filter
          (fun s => ∃ j, k + 1 ≤ j ∧ s = freshCand base j) ⊆
          (used.toFinset.filter
            (fun s => ∃ j, k ≤ j ∧ s = freshCand base j)).erase
            (freshCand base k) := by
        intro s hs
        rw [Finset.mem_filter] at hs
        obtain ⟨hmem, j, hj, rfl⟩ := hs
        rw [Finset.mem_erase, Finset.mem_filter]
        refine ⟨?_, hmem, j, by omega, rfl⟩
        intro hcand
        have := freshCand_injective base hcand
        omega
      have hcard := Finset.card_le_card hsub
      rw [Finset.card_erase_of_mem hmemk] at hcard
      have hpos : 0 < (used.toFinset.filter
          (fun s => ∃ j, k ≤ j ∧ s = freshCand base j)).card :=
        Finset.card_pos.mpr ⟨_, hmemk⟩
      omega
    · rw [if_neg hm]
      exact hm

/-- The fresh index the Python loop settles on, always outside `used`. -/
def pyFreshIdx (base : String) (used : List String) : Nat :=
  pyFreshIdxGo base used (used.length + 1) 0

open Classical in
theorem pyFreshIdx_avoids (base : String) (used : List String) :
    freshCand base (pyFreshIdx base used) ∉ used := by
  apply pyFreshIdxGo_avoids
  calc (used.toFinset.filter
      (fun s => ∃ j, 0 ≤ j ∧ s = freshCand base j)).card
      ≤ used.toFinset.card := Finset.card_filter_le _ _
    _ ≤ used.length := used.toFinset_card_le
    _ < used.length + 1 := by omega

/--
`ensure_unique_bound_variables.fresh_vars(orig_vars)`: variables whose
name is unused keep their identity (the name is marked used); clashing
names are replaced by fresh `BoundVariable`s named `name_idx` with the
first unused numeric suffix.  The mutated `used_names` set is threaded.
-/
def freshVars : List Var → List String → List (Var × Var) × List String
  | [], used => ([], used)
  | v :: vs, used =>
    if v.name ∈ used then
      let newName := freshCand v.name (pyFreshIdx v.name used)
      let (rest, used') := freshVars vs (used ++ [newName])
      ((v, ⟨.boundVar, newName, v.nType⟩) :: rest, used')
    else
      let (rest, used') := freshVars vs (used ++ [v.name])
      ((v, v) :: rest, used')

/-- The spine cost of an n-ary conjunction/disjunction node within
`sizeU`: rebuilding an n-ary combinator by folding the binary smart
constructor yields a nested chain of n-1 binary nodes, so the n-ary node
must weigh 2(n-1) for `substitute_variables` to be size-nonincreasing. -/
def kCost (n : Nat) : Nat := if n = 0 then 1 else 2 * (n - 1)

mutual
/-- A size measure under which `substitute_variables` is nonincreasing;
used to justify the recursion of `ensure_unique_bound_variables`. -/
def sizeU : Formula → Nat
  | .smt _ _ _ _ _ => 1
  | .structPred _ _ => 1
  | .semPred _ _ _ => 1
  | .negF x => 1 + sizeU x
  | .conjF args => kCost args.length + sizeUList args
  | .disjF args => kCost args.length + sizeUList args
  | .forallF _ _ inner _ _ _ => 1 + sizeU inner
  | .existsF _ _ inner _ => 1 + sizeU inner
  | .forallIntF _ inner => 1 + sizeU inner
  | .existsIntF _ inner => 1 + sizeU inner

def sizeUList : List Formula → Nat
  | [] => 0
  | f :: fs => sizeU f + sizeUList fs
end

theorem pyAnd_sizeU (a b : Formula) :
    sizeU (pyAnd a b) ≤ sizeU a + sizeU b + 2 := by
  unfold pyAnd
  split_ifs <;> (try simp [sizeU, sizeUList, kCost, smtFalseF]) <;> omega

theorem pyOr_sizeU (a b : Formula) :
    sizeU (pyOr a b) ≤ sizeU a + sizeU b + 2 := by
  unfold pyOr
  split_ifs <;> (try simp [sizeU, sizeUList, kCost, smtTrueF]) <;> omega

theorem foldl_pyAnd_sizeU (xs : List Formula) :
    ∀ acc, sizeU (xs.foldl pyAnd acc) ≤
      sizeU acc + sizeUList xs + 2 * xs.length := by
  induction xs with
  | nil => intro acc; simp [sizeUList]
  | cons x xs ih =>
    intro acc
    simp only [List.foldl_cons, sizeUList, List.length_cons]
    have h1 := ih (pyAnd acc x)
    have h2 := pyAnd_sizeU acc x
    omega

theorem foldl_pyOr_sizeU (xs : List Formula) :
    ∀ acc, sizeU (xs.foldl pyOr acc) ≤
      sizeU acc + sizeUList xs + 2 * xs.length := by
  induction xs with
  | nil => intro acc; simp [sizeUList]
  | cons x xs ih =>
    intro acc
    simp only [List.foldl_cons, sizeUList, List.length_cons]
    have h1 := ih (pyOr acc x)
    have h2 := pyOr_sizeU acc x
    omega

theorem pyReduceAnd_sizeU (l : List Formula) :
    sizeU (pyReduceAnd l) ≤ kCost l.length + sizeUList l := by
  cases l with
  | nil => simp [pyReduceAnd, smtTrueF, sizeU, kCost, sizeUList]
  | cons x xs =>
    have := foldl_pyAnd_sizeU xs x
    simp only [pyReduceAnd, sizeUList, List.length_cons, kCost]
    split <;> omega

theorem pyReduceOr_sizeU (l : List Formula) :
    sizeU (pyReduceOr l) ≤ kCost l.length + sizeUList l := by
  cases l with
  | nil => simp [pyReduceOr, smtFalseF, sizeU, kCost, sizeUList]
  | cons x xs =>
    have := foldl_pyOr_sizeU xs x
    simp only [pyReduceOr, sizeUList, List.length_cons, kCost]
    split <;> omega

mutual
theorem substVarsF_sizeU : (f : Formula) → ∀ m : List (Var × Var),
    sizeU (substVarsF f m) ≤ sizeU f
  | .smt e fv iv sub ae, m => by simp [substVarsF, sizeU]
  | .structPred p args, m => by simp [substVarsF, sizeU]
  | .semPred p args o, m => by simp [substVarsF, sizeU]
  | .negF x, m => by
    simp only [substVarsF, sizeU]
    have := substVarsF_sizeU x m
    omega
  | .conjF args, m => by
    simp only [substVarsF, sizeU]
    rw [List.attach_map_val args (substVarsF · m)]
    have h1 := pyReduceAnd_sizeU (args.map (substVarsF · m))
    have h2 := substVarsFList_sizeU args m
    rw [List.length_map] at h1
    omega
  | .disjF args, m => by
    simp only [substVarsF, sizeU]
    rw [List.attach_map_val args (substVarsF · m)]
    have h1 := pyReduceOr_sizeU (args.map (substVarsF · m))
    have h2 := substVarsFList_sizeU args m
    rw [List.length_map] at h1
    omega
  | .forallF bv iv inner be am fid, m => by
    simp only [substVarsF, sizeU]
    have := substVarsF_sizeU inner m
    omega
  | .existsF bv iv inner be, m => by
    simp only [substVarsF, sizeU]
    have := substVarsF_sizeU inner m
    omega
  | .forallIntF bv inner, m => by
    simp only [substVarsF, sizeU]
    have := substVarsF_sizeU inner m
    omega
  | .existsIntF bv inner, m => by
    simp only [substVarsF, sizeU]
    have := substVarsF_sizeU inner m
    omega
termination_by f => sizeF f
decreasing_by
  all_goals simp only [sizeF, sizeFList]
  all_goals omega

theorem substVarsFList_sizeU : (l : List Formula) → ∀ m : List (Var × Var),
    sizeUList (l.map (substVarsF · m)) ≤ sizeUList l
  | [], m => by simp [sizeUList]
  | x :: xs, m => by
    simp only [List.map_cons, sizeUList]
    have h1 := substVarsF_sizeU x m
    have h2 := substVarsFList_sizeU xs m
    omega
termination_by l => sizeFList l + 1
decreasing_by
  all_goals simp only [sizeFList]
  · omega
  · have := sizeF_pos x
    omega
end

theorem sizeU_pos : (f : Formula) → 1 ≤ sizeU f
  | .smt _ _ _ _ _ => by simp [sizeU]
  | .structPred _ _ => by simp [sizeU]
  | .semPred _ _ _ => by simp [sizeU]
  | .negF x => by simp only [sizeU]; omega
  | .conjF [] => by simp [sizeU, sizeUList, kCost]
  | .conjF (x :: xs) => by
    simp only [sizeU, sizeUList]
    have := sizeU_pos x
    omega
  | .disjF [] => by simp [sizeU, sizeUList, kCost]
  | .disjF (x :: xs) => by
    simp only [sizeU, sizeUList]
    have := sizeU_pos x
    omega
  | .forallF _ _ inner _ _ _ => by simp only [sizeU]; omega
  | .existsF _ _ inner _ => by simp only [sizeU]; omega
  | .forallIntF _ inner => by simp only [sizeU]; omega
  | .existsIntF _ inner => by simp only [sizeU]; omega

theorem kCost_zero_or_pos (n : Nat) : kCost n = 0 ∨ 1 ≤ kCost n := by
  unfold kCost
  split <;> omega

mutual
/--
`isla.language.ensure_unique_bound_variables(formula, used_names)`:
tree quantifiers rename their bound variables (quantifier variable and
top-level bind-expression variables) through `fresh_vars`, apply
`substitute_variables` to the whole formula, and rebuild with the
recursively processed inner formula — the rebuilt `ForallFormula` draws
a fresh formula id (threaded counter).  Conjunctions/disjunctions
recurse (the shared mutable `used_names` threads left to right) and
re-reduce with the smart constructors; `NegatedFormula` recurses; every
other formula — SMT leaves, predicate formulas, **and the numeric
quantifiers `ForallIntFormula`/`ExistsIntFormula`, for which the source
has no case** — is returned unchanged.
-/
def ensureUnique : Formula → List String → Nat → Formula × List String × Nat
  | .forallF bv iv inner be am _fid, used, fc =>
    let m := (freshVars (qBoundVars bv be) used).1
    let used1 := (freshVars (qBoundVars bv be) used).2
    let bv' := (alistGet m bv).getD bv
    let iv' := vortSubstV iv m
    let inner' := substVarsF inner m
    let be' := be.map (beSubstVars · m)
    let (inner'', used2, fc') := ensureUnique inner' used1 fc
    (.forallF bv' iv' inner'' be' am fc', used2, fc' + 1)
  | .existsF bv iv inner be, used, fc =>
    let m := (freshVars (qBoundVars bv be) used).1
    let used1 := (freshVars (qBoundVars bv be) used).2
    let bv' := (alistGet m bv).getD bv
    let iv' := vortSubstV iv m
    let inner' := substVarsF inner m
    let be' := be.map (beSubstVars · m)
    let (inner'', used2, fc') := ensureUnique inner' used1 fc
    (.existsF bv' iv' inner'' be', used2, fc')
  | .negF x, used, fc =>
    let (x', used', fc') := ensureUnique x used fc
    (.negF x', used', fc')
  | .conjF args, used, fc =>
    let (fs, used', fc') := ensureUniqueList args used fc
    (pyReduceAnd fs, used', fc')
  | .disjF args, used, fc =>
    let (fs, used', fc') := ensureUniqueList args used fc
    (pyReduceOr fs, used', fc')
  | f, used, fc => (f, used, fc)
termination_by f _ _ => (sizeU f, sizeF f)
decreasing_by
  · apply Prod.Lex.left
    have := substVarsF_sizeU inner (freshVars (qBoundVars bv be) used).1
    simp only [sizeU]
    omega
  · apply Prod.Lex.left
    have := substVarsF_sizeU inner (freshVars (qBoundVars bv be) used).1
    simp only [sizeU]
    omega
  · apply Prod.Lex.left
    simp only [sizeU]
    omega
  · rw [Prod.lex_iff]
    simp only [sizeU, sizeF]
    rcases kCost_zero_or_pos args.length with h | h
    · right
      constructor
      · omega
      · omega
    · left
      omega
  · rw [Prod.lex_iff]
    simp only [sizeU, sizeF]
    rcases kCost_zero_or_pos args.length with h | h
    · right
      constructor
      · omega
      · omega
    · left
      omega

/-- The left-to-right threading of `used_names` (a shared mutable set)
through the arguments of a conjunction/disjunction. -/
def ensureUniqueList : List Formula → List String → Nat →
    List Formula × List String × Nat
  | [], used, fc => ([], used, fc)
  | f :: fs, used, fc =>
    let (f', used1, fc1) := ensureUnique f used fc
    let (fs', used2, fc2) := ensureUniqueList fs used1 fc1
    (f' :: fs', used2, fc2)
termination_by l _ _ => (sizeUList l, sizeFList l + 1)
decreasing_by
  · rw [Prod.lex_iff]
    simp only [sizeUList, sizeFList]
    rcases Nat.eq_zero_or_pos (sizeUList fs) with h | h
    · right
      constructor
      · omega
      · omega
    · left
      omega
  · apply Prod.Lex.left
    have := sizeU_pos f
    simp only [sizeUList]
    omega
end

theorem mem_osAdd {α : Type} [DecidableEq α] {l : List α} {x y : α} :
    y ∈ osAdd l x ↔ y ∈ l ∨ y = x := by
  unfold osAdd
  split <;> rename_i h
  · constructor
    · exact fun hy => Or.inl hy
    · rintro (hy | rfl)
      · exact hy
      · exact h
  · simp [List.mem_append]

theorem mem_oUnion {α : Type} [DecidableEq α] {a b : List α} {y : α} :
    y ∈ oUnion a b ↔ y ∈ a ∨ y ∈ b := by
  unfold oUnion
  induction b generalizing a with
  | nil => simp
  | cons x xs ih =>
    simp only [List.foldl_cons, ih, mem_osAdd, List.mem_cons]
    tauto

theorem mem_odedup {α : Type} [DecidableEq α] {l : List α} {y : α} :
    y ∈ odedup l ↔ y ∈ l := by
  have h : ∀ (l acc : List α), y ∈ l.foldl osAdd acc ↔ y ∈ acc ∨ y ∈ l := by
    intro l
    induction l with
    | nil => simp
    | cons x xs ih =>
      intro acc
      simp only [List.foldl_cons, ih, mem_osAdd, List.mem_cons]
      tauto
  unfold odedup
  simp [h l []]

theorem nodup_osAdd {α : Type} [DecidableEq α] {l : List α} {x : α}
    (h : l.Nodup) : (osAdd l x).Nodup := by
  unfold osAdd
  split <;> rename_i hm
  · exact h
  · simp [List.nodup_append, h, hm]

theorem nodup_oUnion {α : Type} [DecidableEq α] {a b : List α}
    (h : a.Nodup) : (oUnion a b).Nodup := by
  unfold oUnion
  induction b generalizing a with
  | nil => exact h
  | cons x xs ih => exact ih (nodup_osAdd h)

theorem nodup_odedup {α : Type} [DecidableEq α] (l : List α) :
    (odedup l).Nodup :=
  nodup_oUnion (a := []) List.nodup_nil

theorem qBoundVars_nodup (bv : Var) (be : Option BindExpr) :
    (qBoundVars bv be).Nodup := by
  unfold qBoundVars
  exact nodup_oUnion (by simp)

/-- The variable a renaming map sends `v` to (`subst_map.get(v, v)`). -/
def imageOf (m : List (Var × Var)) (v : Var) : Var :=
  (alistGet m v).getD v

theorem alistGet_cons_self {β : Type} (v : Var) (w : β)
    (rest : List (Var × β)) : alistGet ((v, w) :: rest) v = some w := by
  unfold alistGet
  rw [List.find?_cons_of_pos _ (by simp)]
  rfl

theorem alistGet_cons_ne {β : Type} {v v' : Var} (w : β)
    (rest : List (Var × β)) (h : v ≠ v') :
    alistGet ((v, w) :: rest) v' = alistGet rest v' := by
  unfold alistGet
  rw [List.find?_cons_of_neg _ (by simp [h])]

/-- One step of `fresh_vars`: the head variable is bound to some image
`w` whose name is not yet used, and the recursion continues with that
name marked used. -/
theorem freshVars_cons (v : Var) (vs : List Var) (used : List String) :
    ∃ w : Var, w.name ∉ used ∧
      freshVars (v :: vs) used =
        ((v, w) :: (freshVars vs (used ++ [w.name])).1,
          (freshVars vs (used ++ [w.name])).2) := by
  by_cases hmem : v.name ∈ used
  · exact ⟨⟨.boundVar, freshCand v.name (pyFreshIdx v.name used), v.nType⟩,
      pyFreshIdx_avoids v.name used, by rw [freshVars, if_pos hmem]⟩
  · exact ⟨v, hmem, by rw [freshVars, if_neg hmem]⟩

theorem freshVars_spec : ∀ (vs : List Var) (used : List String), vs.Nodup →
    (∀ u ∈ used, u ∈ (freshVars vs used).2) ∧
    (∀ v ∈ vs, (imageOf (freshVars vs used).1 v).name ∉ used) ∧
    (∀ v ∈ vs, (imageOf (freshVars vs used).1 v).name ∈ (freshVars vs used).2) ∧
    (∀ v1 ∈ vs, ∀ v2 ∈ vs, v1 ≠ v2 →
      (imageOf (freshVars vs used).1 v1).name ≠
        (imageOf (freshVars vs used).1 v2).name) ∧
    (∀ v, v ∉ vs → alistGet (freshVars vs used).1 v = none) := by
  intro vs
  induction vs with
  | nil =>
    intro used _
    refine ⟨fun u hu => hu, by simp, by simp, by simp, ?_⟩
    intro v _
    simp [freshVars, alistGet]
  | cons v vs ih =>
    intro used hnd
    rw [List.nodup_cons] at hnd
    obtain ⟨hvnot, hnd'⟩ := hnd
    obtain ⟨w, hwfresh, heq⟩ := freshVars_cons v vs used
    obtain ⟨ih1, ih2, ih3, ih4, ih5⟩ := ih (used ++ [w.name]) hnd'
    have himgv : imageOf (freshVars (v :: vs) used).1 v = w := by
      rw [heq]
      simp [imageOf, alistGet_cons_self]
    have himg : ∀ u ∈ vs, imageOf (freshVars (v :: vs) used).1 u =
        imageOf (freshVars vs (used ++ [w.name])).1 u := by
      intro u hu
      have hne : v ≠ u := fun hc => hvnot (hc ▸ hu)
      rw [heq]
      simp [imageOf, alistGet_cons_ne w _ hne]
    have hsnd : (freshVars (v :: vs) used).2 =
        (freshVars vs (used ++ [w.name])).2 := by rw [heq]
    refine ⟨?_, ?_, ?_, ?_, ?_⟩
    · intro u hu
      rw [hsnd]
      exact ih1 u (List.mem_append.mpr (Or.inl hu))
    · intro u hu
      rcases List.mem_cons.mp hu with rfl | hmem
      · rw [himgv]; exact hwfresh
      · rw [himg u hmem]
        intro hc
        exact ih2 u hmem (List.mem_append.mpr (Or.inl hc))
    · intro u hu
      rw [hsnd]
      rcases List.mem_cons.mp hu with rfl | hmem
      · rw [himgv]
        exact ih1 w.name (List.mem_append.mpr (Or.inr (by simp)))
      · rw [himg u hmem]
        exact ih3 u hmem
    · intro v1 h1 v2 h2 hne
      rcases List.mem_cons.mp h1 with h1' | hm1
      · subst h1'
        rcases List.mem_cons.mp h2 with h2' | hm2
        · exact absurd h2'.symm hne
        · rw [himgv, himg v2 hm2]
          intro hc
          apply ih2 v2 hm2
          rw [← hc]
          exact List.mem_append.mpr (Or.inr (by simp))
      · rcases List.mem_cons.mp h2 with h2' | hm2
        · subst h2'
          rw [himgv, himg v1 hm1]
          intro hc
          apply ih2 v1 hm1
          rw [hc]
          exact List.mem_append.mpr (Or.inr (by simp))
        · rw [himg v1 hm1, himg v2 hm2]
          exact ih4 v1 hm1 v2 hm2 hne
    · intro u hu
      have hne : v ≠ u := fun hc => hu (hc ▸ List.mem_cons_self v vs)
      have hnotvs : u ∉ vs := fun hc => hu (List.mem_cons_of_mem v hc)
      rw [heq, alistGet_cons_ne w _ hne]
      exact ih5 u hnotvs

theorem mem_beBoundVariables {b : BindExpr} {y : Var}
    (hk : y.kind = .boundVar) (he : BElem.v y ∈ b.elems) :
    y ∈ beBoundVariables b := by
  unfold beBoundVariables
  rw [mem_odedup]
  apply List.mem_filterMap.mpr
  exact ⟨BElem.v y, he, by simp [hk]⟩

/-- The renamed binders of a quantifier: every binder name of the
substituted quantifier is outside the original `used_names`, is recorded
in the updated `used_names`, and the names are pairwise distinct. -/
theorem rename_quant_spec (bv : Var) (be : Option BindExpr)
    (used : List String) (m : List (Var × Var)) (used1 : List String)
    (hm : freshVars (qBoundVars bv be) used = (m, used1)) :
    (∀ u ∈ used, u ∈ used1) ∧
    (∀ n ∈ (qBoundVars (imageOf m bv) (be.map (beSubstVars · m))).map Var.name,
      n ∉ used) ∧
    (∀ n ∈ (qBoundVars (imageOf m bv) (be.map (beSubstVars · m))).map Var.name,
      n ∈ used1) ∧
    ((qBoundVars (imageOf m bv) (be.map (beSubstVars · m))).map Var.name).Nodup := by
  obtain ⟨s1, s2, s3, s4, s5⟩ :=
    freshVars_spec (qBoundVars bv be) used (qBoundVars_nodup bv be)
  rw [hm] at s1 s2 s3 s4 s5
  have hcov : ∀ x ∈ qBoundVars (imageOf m bv) (be.map (beSubstVars · m)),
      ∃ y ∈ qBoundVars bv be, x = imageOf m y := by
    intro x hx
    unfold qBoundVars at hx
    rcases mem_oUnion.mp hx with hx1 | hx2
    · rcases List.mem_singleton.mp hx1 with rfl
      exact ⟨bv, mem_oUnion.mpr (Or.inl (by simp)), rfl⟩
    · cases be with
      | none => simp at hx2
      | some b =>
        replace hx2 : x ∈ beBoundVariables (beSubstVars b m) := hx2
        unfold beBoundVariables at hx2
        rw [mem_odedup] at hx2
        obtain ⟨e, he, hge⟩ := List.mem_filterMap.mp hx2
        unfold beSubstVars at he
        simp only [List.mem_map] at he
        obtain ⟨el, hel, rfl⟩ := he
        cases el with
        | group xs => simp at hge
        | v y =>
          simp only at hge
          split at hge
          · rename_i hkind
            rw [Option.some.injEq] at hge
            subst hge
            refine ⟨y, ?_, rfl⟩
            cases halist : alistGet m y with
            | some w =>
              by_contra hc
              rw [s5 y hc] at halist
              cases halist
            | none =>
              have hxy : (alistGet m y).getD y = y := by rw [halist]; rfl
              have hyk : y.kind = .boundVar := by
                rw [hxy] at hkind
                exact hkind
              unfold qBoundVars
              exact mem_oUnion.mpr (Or.inr (mem_beBoundVariables hyk hel))
          · cases hge
  refine ⟨s1, ?_, ?_, ?_⟩
  · intro n hn
    obtain ⟨x, hx, rfl⟩ := List.mem_map.mp hn
    obtain ⟨y, hy, rfl⟩ := hcov x hx
    exact s2 y hy
  · intro n hn
    obtain ⟨x, hx, rfl⟩ := List.mem_map.mp hn
    obtain ⟨y, hy, rfl⟩ := hcov x hx
    exact s3 y hy
  · apply List.Nodup.map_on ?_ (qBoundVars_nodup _ _)
    intro x1 h1 x2 h2 hname
    obtain ⟨y1, hy1, rfl⟩ := hcov x1 h1
    obtain ⟨y2, hy2, rfl⟩ := hcov x2 h2
    by_cases hyy : y1 = y2
    · rw [hyy]
    · exact absurd hname (s4 y1 hy1 y2 hy2 hyy)

mutual
/-- No numeric quantifier (`ForallIntFormula`/`ExistsIntFormula`) occurs
anywhere in the formula. -/
def intQuantFree : Formula → Bool
  | .negF x => intQuantFree x
  | .conjF args => intQuantFreeList args
  | .disjF args => intQuantFreeList args
  | .forallF _ _ inner _ _ _ => intQuantFree inner
  | .existsF _ _ inner _ => intQuantFree inner
  | .forallIntF _ _ => false
  | .existsIntF _ _ => false
  | _ => true
termination_by f => 2 * sizeF f
decreasing_by
  all_goals simp only [sizeF, sizeFList]
  all_goals omega

/-- Conjunct-wise `intQuantFree`. -/
def intQuantFreeList : List Formula → Bool
  | [] => true
  | f :: fs => intQuantFree f && intQuantFreeList fs
termination_by l => 2 * sizeFList l + 1
decreasing_by
  all_goals simp only [sizeFList]
  all_goals (have haux := sizeF_pos f; omega)
end

mutual
/-- The uniqueness property of `ensure_unique_bound_variables`: no
binder (quantifier variable or bind-expression bound variable) in the
formula binds a name already bound by an enclosing binder, and the
binder names introduced at any single quantifier are pairwise distinct.
`encl` accumulates the names bound by the enclosing quantifiers. -/
def nestedOK : Formula → List String → Bool
  | .negF x, encl => nestedOK x encl
  | .conjF args, encl => nestedOKList args encl
  | .disjF args, encl => nestedOKList args encl
  | .forallF bv _ inner be _ _, encl =>
    (decide ((((qBoundVars bv be).map Var.name).Nodup) ∧
      ∀ n ∈ (qBoundVars bv be).map Var.name, n ∉ encl)) &&
    nestedOK inner (encl ++ (qBoundVars bv be).map Var.name)
  | .existsF bv _ inner be, encl =>
    (decide ((((qBoundVars bv be).map Var.name).Nodup) ∧
      ∀ n ∈ (qBoundVars bv be).map Var.name, n ∉ encl)) &&
    nestedOK inner (encl ++ (qBoundVars bv be).map Var.name)
  | .forallIntF bv inner, encl =>
    (decide (bv.name ∉ encl)) && nestedOK inner (encl ++ [bv.name])
  | .existsIntF bv inner, encl =>
    (decide (bv.name ∉ encl)) && nestedOK inner (encl ++ [bv.name])
  | _, _ => true
termination_by f _ => 2 * sizeF f
decreasing_by
  all_goals simp only [sizeF, sizeFList]
  all_goals omega

/-- Conjunct-wise `nestedOK`. -/
def nestedOKList : List Formula → List String → Bool
  | [], _ => true
  | f :: fs, encl => nestedOK f encl && nestedOKList fs encl
termination_by l _ => 2 * sizeFList l + 1
decreasing_by
  all_goals simp only [sizeFList]
  all_goals (have haux := sizeF_pos f; omega)
end

theorem intQuantFreeList_mem {l : List Formula} (h : intQuantFreeList l = true) :
    ∀ f ∈ l, intQuantFree f = true := by
  induction l with
  | nil => intro f hf; cases hf
  | cons x xs ih =>
    simp only [intQuantFreeList, Bool.and_eq_true] at h
    intro f hf
    rcases List.mem_cons.mp hf with rfl | hm
    · exact h.1
    · exact ih h.2 f hm

theorem nestedOKList_of_mem {l : List Formula} {encl : List String}
    (h : ∀ f ∈ l, nestedOK f encl = true) : nestedOKList l encl = true := by
  induction l with
  | nil => simp [nestedOKList]
  | cons x xs ih =>
    simp only [nestedOKList, Bool.and_eq_true]
    exact ⟨h x (by simp), ih (fun f hf => h f (by simp [hf]))⟩

theorem intQuantFree_pyAnd {a b : Formula} (ha : intQuantFree a = true)
    (hb : intQuantFree b = true) : intQuantFree (pyAnd a b) = true := by
  unfold pyAnd
  split_ifs <;> simp_all [intQuantFree, intQuantFreeList, smtFalseF]

theorem intQuantFree_pyOr {a b : Formula} (ha : intQuantFree a = true)
    (hb : intQuantFree b = true) : intQuantFree (pyOr a b) = true := by
  unfold pyOr
  split_ifs <;> simp_all [intQuantFree, intQuantFreeList, smtTrueF]

theorem intQuantFree_foldl_pyAnd (l : List Formula) : ∀ a : Formula,
    intQuantFree a = true → (∀ f ∈ l, intQuantFree f = true) →
    intQuantFree (l.foldl pyAnd a) = true := by
  induction l with
  | nil => intro a ha _; simpa using ha
  | cons x xs ih =>
    intro a ha h
    simp only [List.foldl_cons]
    exact ih (pyAnd a x) (intQuantFree_pyAnd ha (h x (by simp)))
      (fun f hf => h f (by simp [hf]))

theorem intQuantFree_foldl_pyOr (l : List Formula) : ∀ a : Formula,
    intQuantFree a = true → (∀ f ∈ l, intQuantFree f = true) →
    intQuantFree (l.foldl pyOr a) = true := by
  induction l with
  | nil => intro a ha _; simpa using ha
  | cons x xs ih =>
    intro a ha h
    simp only [List.foldl_cons]
    exact ih (pyOr a x) (intQuantFree_pyOr ha (h x (by simp)))
      (fun f hf => h f (by simp [hf]))

theorem intQuantFree_pyReduceAnd {l : List Formula}
    (h : ∀ f ∈ l, intQuantFree f = true) :
    intQuantFree (pyReduceAnd l) = true := by
  cases l with
  | nil => simp [pyReduceAnd, smtTrueF, intQuantFree]
  | cons x xs =>
    simp only [pyReduceAnd]
    exact intQuantFree_foldl_pyAnd xs x (h x (by simp)) (fun f hf => h f (by simp [hf]))

theorem intQuantFree_pyReduceOr {l : List Formula}
    (h : ∀ f ∈ l, intQuantFree f = true) :
    intQuantFree (pyReduceOr l) = true := by
  cases l with
  | nil => simp [pyReduceOr, smtFalseF, intQuantFree]
  | cons x xs =>
    simp only [pyReduceOr]
    exact intQuantFree_foldl_pyOr xs x (h x (by simp)) (fun f hf => h f (by simp [hf]))

theorem nestedOK_pyAnd {a b : Formula} {encl : List String}
    (ha : nestedOK a encl = true) (hb : nestedOK b encl = true) :
    nestedOK (pyAnd a b) encl = true := by
  unfold pyAnd
  split_ifs <;> simp_all [nestedOK, nestedOKList, smtFalseF]

theorem nestedOK_pyOr {a b : Formula} {encl : List String}
    (ha : nestedOK a encl = true) (hb : nestedOK b encl = true) :
    nestedOK (pyOr a b) encl = true := by
  unfold pyOr
  split_ifs <;> simp_all [nestedOK, nestedOKList, smtTrueF]

theorem nestedOK_foldl_pyAnd (l : List Formula) (encl : List String) : ∀ a : Formula,
    nestedOK a encl = true → (∀ f ∈ l, nestedOK f encl = true) →
    nestedOK (l.foldl pyAnd a) encl = true := by
  induction l with
  | nil => intro a ha _; simpa using ha
  | cons x xs ih =>
    intro a ha h
    simp only [List.foldl_cons]
    exact ih (pyAnd a x) (nestedOK_pyAnd ha (h x (by simp)))
      (fun f hf => h f (by simp [hf]))

theorem nestedOK_foldl_pyOr (l : List Formula) (encl : List String) : ∀ a : Formula,
    nestedOK a encl = true → (∀ f ∈ l, nestedOK f encl = true) →
    nestedOK (l.foldl pyOr a) encl = true := by
  induction l with
  | nil => intro a ha _; simpa using ha
  | cons x xs ih =>
    intro a ha h
    simp only [List.foldl_cons]
    exact ih (pyOr a x) (nestedOK_pyOr ha (h x (by simp)))
      (fun f hf => h f (by simp [hf]))

theorem nestedOK_pyReduceAnd {l : List Formula} {encl : List String}
    (h : ∀ f ∈ l, nestedOK f encl = true) :
    nestedOK (pyReduceAnd l) encl = true := by
  cases l with
  | nil => simp [pyReduceAnd, smtTrueF, nestedOK]
  | cons x xs =>
    simp only [pyReduceAnd]
    exact nestedOK_foldl_pyAnd xs encl x (h x (by simp)) (fun f hf => h f (by simp [hf]))

theorem nestedOK_pyReduceOr {l : List Formula} {encl : List String}
    (h : ∀ f ∈ l, nestedOK f encl = true) :
    nestedOK (pyReduceOr l) encl = true := by
  cases l with
  | nil => simp [pyReduceOr, smtFalseF, nestedOK]
  | cons x xs =>
    simp only [pyReduceOr]
    exact nestedOK_foldl_pyOr xs encl x (h x (by simp)) (fun f hf => h f (by simp [hf]))

mutual
/-- `substitute_variables` introduces no numeric quantifier. -/
theorem intQuantFree_substVarsF : (f : Formula) → ∀ m : List (Var × Var),
    intQuantFree f = true → intQuantFree (substVarsF f m) = true
  | .smt e fv iv sub ae, m, _ => by simp [substVarsF, intQuantFree]
  | .structPred p args, m, _ => by simp [substVarsF, intQuantFree]
  | .semPred p args o, m, _ => by simp [substVarsF, intQuantFree]
  | .negF x, m, h => by
    simp only [intQuantFree] at h
    simp only [substVarsF, intQuantFree]
    exact intQuantFree_substVarsF x m h
  | .conjF args, m, h => by
    simp only [intQuantFree] at h
    simp only [substVarsF]
    rw [List.attach_map_val args (substVarsF · m)]
    exact intQuantFree_pyReduceAnd
      (intQuantFreeList_substVarsF args m (intQuantFreeList_mem h))
  | .disjF args, m, h => by
    simp only [intQuantFree] at h
    simp only [substVarsF]
    rw [List.attach_map_val args (substVarsF · m)]
    exact intQuantFree_pyReduceOr
      (intQuantFreeList_substVarsF args m (intQuantFreeList_mem h))
  | .forallF bv iv inner be am fid, m, h => by
    simp only [intQuantFree] at h
    simp only [substVarsF, intQuantFree]
    exact intQuantFree_substVarsF inner m h
  | .existsF bv iv inner be, m, h => by
    simp only [intQuantFree] at h
    simp only [substVarsF, intQuantFree]
    exact intQuantFree_substVarsF inner m h
  | .forallIntF bv inner, m, h => by simp [intQuantFree] at h
  | .existsIntF bv inner, m, h => by simp [intQuantFree] at h
termination_by f => sizeF f
decreasing_by
  all_goals simp only [sizeF, sizeFList]
  all_goals omega

/-- Element-wise form of `intQuantFree_substVarsF`. -/
theorem intQuantFreeList_substVarsF : (l : List Formula) → ∀ m : List (Var × Var),
    (∀ f ∈ l, intQuantFree f = true) →
    ∀ g ∈ l.map (substVarsF · m), intQuantFree g = true
  | [], m, _ => by simp
  | x :: xs, m, h => by
    intro g hg
    simp only [List.map_cons, List.mem_cons] at hg
    rcases hg with rfl | hm
    · exact intQuantFree_substVarsF x m (h x (by simp))
    · exact intQuantFreeList_substVarsF xs m (fun f hf => h f (by simp [hf])) g hm
termination_by l => sizeFList l + 1
decreasing_by
  all_goals simp only [sizeFList]
  · omega
  · have := sizeF_pos x
    omega
end

mutual
/-- `ensure_unique_bound_variables` only ever adds names to the shared
`used_names` set. -/
theorem ensureUnique_used_mono : (f : Formula) → ∀ (used : List String) (fc : Nat),
    ∀ u ∈ used, u ∈ (ensureUnique f used fc).2.1
  | .smt e fv iv sub ae, used, fc, u, hu => by simpa [ensureUnique] using hu
  | .structPred p args, used, fc, u, hu => by simpa [ensureUnique] using hu
  | .semPred p args o, used, fc, u, hu => by simpa [ensureUnique] using hu
  | .forallIntF bv inner, used, fc, u, hu => by simpa [ensureUnique] using hu
  | .existsIntF bv inner, used, fc, u, hu => by simpa [ensureUnique] using hu
  | .forallF bv iv inner be am fid, used, fc, u, hu => by
    obtain ⟨s1, -, -, -, -⟩ :=
      freshVars_spec (qBoundVars bv be) used (qBoundVars_nodup bv be)
    have ih := ensureUnique_used_mono
      (substVarsF inner (freshVars (qBoundVars bv be) used).1)
      (freshVars (qBoundVars bv be) used).2 fc u (s1 u hu)
    rcases hE : ensureUnique (substVarsF inner (freshVars (qBoundVars bv be) used).1)
      (freshVars (qBoundVars bv be) used).2 fc with ⟨inner2, used2, fc2⟩
    rw [hE] at ih
    simp only [ensureUnique, hE]
    exact ih
  | .existsF bv iv inner be, used, fc, u, hu => by
    obtain ⟨s1, -, -, -, -⟩ :=
      freshVars_spec (qBoundVars bv be) used (qBoundVars_nodup bv be)
    have ih := ensureUnique_used_mono
      (substVarsF inner (freshVars (qBoundVars bv be) used).1)
      (freshVars (qBoundVars bv be) used).2 fc u (s1 u hu)
    rcases hE : ensureUnique (substVarsF inner (freshVars (qBoundVars bv be) used).1)
      (freshVars (qBoundVars bv be) used).2 fc with ⟨inner2, used2, fc2⟩
    rw [hE] at ih
    simp only [ensureUnique, hE]
    exact ih
  | .negF x, used, fc, u, hu => by
    have ih := ensureUnique_used_mono x used fc u hu
    rcases hE : ensureUnique x used fc with ⟨x2, used2, fc2⟩
    rw [hE] at ih
    simp only [ensureUnique, hE]
    exact ih
  | .conjF args, used, fc, u, hu => by
    have ih := ensureUniqueList_used_mono args used fc u hu
    rcases hE : ensureUniqueList args used fc with ⟨fs, used2, fc2⟩
    rw [hE] at ih
    simp only [ensureUnique, hE]
    exact ih
  | .disjF args, used, fc, u, hu => by
    have ih := ensureUniqueList_used_mono args used fc u hu
    rcases hE : ensureUniqueList args used fc with ⟨fs, used2, fc2⟩
    rw [hE] at ih
    simp only [ensureUnique, hE]
    exact ih
termination_by f => (sizeU f, sizeF f)
decreasing_by
  · apply Prod.Lex.left
    have := substVarsF_sizeU inner (freshVars (qBoundVars bv be) used).1
    simp only [sizeU]
    omega
  · apply Prod.Lex.left
    have := substVarsF_sizeU inner (freshVars (qBoundVars bv be) used).1
    simp only [sizeU]
    omega
  · apply Prod.Lex.left
    simp only [sizeU]
    omega
  · rw [Prod.lex_iff]
    simp only [sizeU, sizeF]
    rcases kCost_zero_or_pos args.length with h | h
    · right
      constructor
      · omega
      · omega
    · left
      omega
  · rw [Prod.lex_iff]
    simp only [sizeU, sizeF]
    rcases kCost_zero_or_pos args.length with h | h
    · right
      constructor
      · omega
      · omega
    · left
      omega

/-- Left-to-right threading of `used_names` through an argument list
only adds names. -/
theorem ensureUniqueList_used_mono : (l : List Formula) → ∀ (used : List String)
    (fc : Nat), ∀ u ∈ used, u ∈ (ensureUniqueList l used fc).2.1
  | [], used, fc, u, hu => by simpa [ensureUniqueList] using hu
  | f :: fs, used, fc, u, hu => by
    have ih1 := ensureUnique_used_mono f used fc u hu
    rcases hE1 : ensureUnique f used fc with ⟨f1, used1, fc1⟩
    rw [hE1] at ih1
    have ih2 := ensureUniqueList_used_mono fs used1 fc1 u ih1
    rcases hE2 : ensureUniqueList fs used1 fc1 with ⟨fs1, used2, fc2⟩
    rw [hE2] at ih2
    simp only [ensureUniqueList, hE1, hE2]
    exact ih2
termination_by l => (sizeUList l, sizeFList l + 1)
decreasing_by
  · rw [Prod.lex_iff]
    simp only [sizeUList, sizeFList]
    rcases Nat.eq_zero_or_pos (sizeUList fs) with h | h
    · right
      constructor
      · omega
      · omega
    · left
      omega
  · apply Prod.Lex.left
    have := sizeU_pos f
    simp only [sizeUList]
    omega
end

mutual
/-- For a formula without numeric quantifiers, the result of
`ensure_unique_bound_variables` has no nested binder-name clash with any
list of enclosing binder names drawn from `used_names`. -/
theorem ensureUnique_nestedOK : (f : Formula) → ∀ (used : List String) (fc : Nat)
    (encl : List String), intQuantFree f = true → (∀ n ∈ encl, n ∈ used) →
    nestedOK (ensureUnique f used fc).1 encl = true
  | .smt e fv iv sub ae, used, fc, encl, _, _ => by simp [ensureUnique, nestedOK]
  | .structPred p args, used, fc, encl, _, _ => by simp [ensureUnique, nestedOK]
  | .semPred p args o, used, fc, encl, _, _ => by simp [ensureUnique, nestedOK]
  | .forallIntF bv inner, used, fc, encl, hi, _ => by simp [intQuantFree] at hi
  | .existsIntF bv inner, used, fc, encl, hi, _ => by simp [intQuantFree] at hi
  | .forallF bv iv inner be am fid, used, fc, encl, hi, he => by
    simp only [intQuantFree] at hi
    obtain ⟨r1, r2, r3, r4⟩ := rename_quant_spec bv be used
      (freshVars (qBoundVars bv be) used).1 (freshVars (qBoundVars bv be) used).2 rfl
    simp only [imageOf] at r2 r3 r4
    have hiq : intQuantFree
        (substVarsF inner (freshVars (qBoundVars bv be) used).1) = true :=
      intQuantFree_substVarsF inner (freshVars (qBoundVars bv be) used).1 hi
    have hsub : ∀ n ∈ encl ++
        (qBoundVars ((alistGet (freshVars (qBoundVars bv be) used).1 bv).getD bv)
          (be.map (beSubstVars · (freshVars (qBoundVars bv be) used).1))).map Var.name,
        n ∈ (freshVars (qBoundVars bv be) used).2 := by
      intro n hn
      rcases List.mem_append.mp hn with h1 | h2
      · exact r1 n (he n h1)
      · exact r3 n h2
    have ih := ensureUnique_nestedOK
      (substVarsF inner (freshVars (qBoundVars bv be) used).1)
      (freshVars (qBoundVars bv be) used).2 fc
      (encl ++
        (qBoundVars ((alistGet (freshVars (qBoundVars bv be) used).1 bv).getD bv)
          (be.map (beSubstVars · (freshVars (qBoundVars bv be) used).1))).map Var.name)
      hiq hsub
    rcases hE : ensureUnique (substVarsF inner (freshVars (qBoundVars bv be) used).1)
      (freshVars (qBoundVars bv be) used).2 fc with ⟨inner2, used2, fc2⟩
    rw [hE] at ih
    simp only [ensureUnique, hE]
    simp only [nestedOK, Bool.and_eq_true, decide_eq_true_eq]
    exact ⟨⟨r4, fun n hn hmem => r2 n hn (he n hmem)⟩, ih⟩
  | .existsF bv iv inner be, used, fc, encl, hi, he => by
    simp only [intQuantFree] at hi
    obtain ⟨r1, r2, r3, r4⟩ := rename_quant_spec bv be used
      (freshVars (qBoundVars bv be) used).1 (freshVars (qBoundVars bv be) used).2 rfl
    simp only [imageOf] at r2 r3 r4
    have hiq : intQuantFree
        (substVarsF inner (freshVars (qBoundVars bv be) used).1) = true :=
      intQuantFree_substVarsF inner (freshVars (qBoundVars bv be) used).1 hi
    have hsub : ∀ n ∈ encl ++
        (qBoundVars ((alistGet (freshVars (qBoundVars bv be) used).1 bv).getD bv)
          (be.map (beSubstVars · (freshVars (qBoundVars bv be) used).1))).map Var.name,
        n ∈ (freshVars (qBoundVars bv be) used).2 := by
      intro n hn
      rcases List.mem_append.mp hn with h1 | h2
      · exact r1 n (he n h1)
      · exact r3 n h2
    have ih := ensureUnique_nestedOK
      (substVarsF inner (freshVars (qBoundVars bv be) used).1)
      (freshVars (qBoundVars bv be) used).2 fc
      (encl ++
        (qBoundVars ((alistGet (freshVars (qBoundVars bv be) used).1 bv).getD bv)
          (be.map (beSubstVars · (freshVars (qBoundVars bv be) used).1))).map Var.name)
      hiq hsub
    rcases hE : ensureUnique (substVarsF inner (freshVars (qBoundVars bv be) used).1)
      (freshVars (qBoundVars bv be) used).2 fc with ⟨inner2, used2, fc2⟩
    rw [hE] at ih
    simp only [ensureUnique, hE]
    simp only [nestedOK, Bool.and_eq_true, decide_eq_true_eq]
    exact ⟨⟨r4, fun n hn hmem => r2 n hn (he n hmem)⟩, ih⟩
  | .negF x, used, fc, encl, hi, he => by
    simp only [intQuantFree] at hi
    have ih := ensureUnique_nestedOK x used fc encl hi he
    rcases hE : ensureUnique x used fc with ⟨x2, used2, fc2⟩
    rw [hE] at ih
    simp only [ensureUnique, hE]
    simpa [nestedOK] using ih
  | .conjF args, used, fc, encl, hi, he => by
    simp only [intQuantFree] at hi
    have ih := ensureUniqueList_nestedOK args used fc encl hi he
    rcases hE : ensureUniqueList args used fc with ⟨fs, used2, fc2⟩
    rw [hE] at ih
    simp only [ensureUnique, hE]
    exact nestedOK_pyReduceAnd ih
  | .disjF args, used, fc, encl, hi, he => by
    simp only [intQuantFree] at hi
    have ih := ensureUniqueList_nestedOK args used fc encl hi he
    rcases hE : ensureUniqueList args used fc with ⟨fs, used2, fc2⟩
    rw [hE] at ih
    simp only [ensureUnique, hE]
    exact nestedOK_pyReduceOr ih
termination_by f => (sizeU f, sizeF f)
decreasing_by
  · apply Prod.Lex.left
    have := substVarsF_sizeU inner (freshVars (qBoundVars bv be) used).1
    simp only [sizeU]
    omega
  · apply Prod.Lex.left
    have := substVarsF_sizeU inner (freshVars (qBoundVars bv be) used).1
    simp only [sizeU]
    omega
  · apply Prod.Lex.left
    simp only [sizeU]
    omega
  · rw [Prod.lex_iff]
    simp only [sizeU, sizeF]
    rcases kCost_zero_or_pos args.length with h | h
    · right
      constructor
      · omega
      · omega
    · left
      omega
  · rw [Prod.lex_iff]
    simp only [sizeU, sizeF]
    rcases kCost_zero_or_pos args.length with h | h
    · right
      constructor
      · omega
      · omega
    · left
      omega

/-- Element-wise form of `ensureUnique_nestedOK` over the threaded
`used_names`. -/
theorem ensureUniqueList_nestedOK : (l : List Formula) → ∀ (used : List String)
    (fc : Nat) (encl : List String), intQuantFreeList l = true →
    (∀ n ∈ encl, n ∈ used) →
    ∀ g ∈ (ensureUniqueList l used fc).1, nestedOK g encl = true
  | [], used, fc, encl, _, _ => by simp [ensureUniqueList]
  | f :: fs, used, fc, encl, hi, he => by
    simp only [intQuantFreeList, Bool.and_eq_true] at hi
    have ih1 := ensureUnique_nestedOK f used fc encl hi.1 he
    have hmono := ensureUnique_used_mono f used fc
    rcases hE1 : ensureUnique f used fc with ⟨f1, used1, fc1⟩
    rw [hE1] at ih1 hmono
    have he1 : ∀ n ∈ encl, n ∈ used1 := fun n hn => hmono n (he n hn)
    have ih2 := ensureUniqueList_nestedOK fs used1 fc1 encl hi.2 he1
    rcases hE2 : ensureUniqueList fs used1 fc1 with ⟨fs1, used2, fc2⟩
    rw [hE2] at ih2
    simp only [ensureUniqueList, hE1, hE2]
    intro g hg
    rcases List.mem_cons.mp hg with rfl | hm
    · exact ih1
    · exact ih2 g hm
termination_by l => (sizeUList l, sizeFList l + 1)
decreasing_by
  · rw [Prod.lex_iff]
    simp only [sizeUList, sizeFList]
    rcases Nat.eq_zero_or_pos (sizeUList fs) with h | h
    · right
      constructor
      · omega
      · omega
    · left
      omega
  · apply Prod.Lex.left
    have := sizeU_pos f
    simp only [sizeUList]
    omega
end

/-- A numeric bound variable used for nested `forall_int` quantifiers. -/
def nIntVar : Var := ⟨.boundVar, "n", "NUM"⟩

/-- Two nested numeric quantifiers binding the same name `n`. -/
def nestedIntClashF : Formula := .forallIntF nIntVar (.forallIntF nIntVar predP)

/-- Two nested tree quantifiers binding the same name `x`. -/
def nestedClashF : Formula :=
  .forallF vX (.var startConst) (.forallF vX (.var startConst) predP none [] 1) none [] 0

/-- **C5 counterexample.**  `ensure_unique_bound_variables` has no case
for `ForallIntFormula`/`ExistsIntFormula` and falls through to the
identity branch: the nested numeric quantifiers `∀ int n. ∀ int n. p`
are returned completely unchanged, and the result still contains two
nested binders of the same name `n`. -/
theorem ensure_unique_int_quantifier_counterexample :
    ensureUnique nestedIntClashF [] 0 = (nestedIntClashF, [], 0) ∧
    nestedOK (ensureUnique nestedIntClashF [] 0).1 [] = false := by
  have hinner : nestedOK (.forallIntF nIntVar predP) ([] ++ [nIntVar.name]) = false := by
    simp [nestedOK, nIntVar]
  constructor
  · simp [nestedIntClashF, ensureUnique]
  · simp [nestedIntClashF, ensureUnique, nestedOK, hinner]

/-- **C5** (amended): for every formula `f` built without the numeric
quantifiers `ForallIntFormula`/`ExistsIntFormula`, and any initial
`used_names` and forall-id counter, `ensure_unique_bound_variables`
returns a formula in which no two nested binders bind variables of the
same name (and the binder names introduced at each single quantifier are
pairwise distinct); numeric-quantifier subformulas, by contrast, are
returned unchanged. -/
theorem ensure_unique_bound_variables_no_clashes (f : Formula)
    (used : List String) (fc : Nat) (h : intQuantFree f = true) :
    nestedOK (ensureUnique f used fc).1 [] = true :=
  ensureUnique_nestedOK f used fc [] h (fun n hn => absurd hn (List.not_mem_nil n))

/-- **C5 witness.**  The nested clash `∀ x. ∀ x. p` is resolved by
`ensure_unique_bound_variables`. -/
theorem ensure_unique_bound_variables_no_clashes_witness :
    intQuantFree nestedClashF = true ∧
    nestedOK (ensureUnique nestedClashF [] 0).1 [] = true :=
  ⟨by simp [nestedClashF, predP, intQuantFree],
   ensure_unique_bound_variables_no_clashes nestedClashF [] 0
     (by simp [nestedClashF, predP, intQuantFree])⟩

/-- A formula that `convert_to_nnf` may leave under a `NegatedFormula`
in negation normal form: a predicate formula or an SMT leaf (negation of
anything else is a combinator or quantifier under a negation). -/
def negAtom : Formula → Bool
  | .structPred _ _ => true
  | .semPred _ _ _ => true
  | .smt _ _ _ _ _ => true
  | _ => false

mutual
/-- The claim's property: at every depth — including inside quantifier
bodies — no `NegatedFormula` is applied to a propositional combinator or
a quantified formula. -/
def nnfDeep : Formula → Bool
  | .negF x => negAtom x && nnfDeep x
  | .conjF args => nnfDeepList args
  | .disjF args => nnfDeepList args
  | .forallF _ _ inner _ _ _ => nnfDeep inner
  | .existsF _ _ inner _ => nnfDeep inner
  | .forallIntF _ inner => nnfDeep inner
  | .existsIntF _ inner => nnfDeep inner
  | _ => true
termination_by f => 2 * sizeF f
decreasing_by
  all_goals simp only [sizeF, sizeFList]
  all_goals omega

/-- Conjunct-wise `nnfDeep`. -/
def nnfDeepList : List Formula → Bool
  | [] => true
  | f :: fs => nnfDeep f && nnfDeepList fs
termination_by l => 2 * sizeFList l + 1
decreasing_by
  all_goals simp only [sizeFList]
  all_goals (have haux := sizeF_pos f; omega)
end

mutual
/-- The property `convert_to_nnf` actually establishes: on the
propositional skeleton above the outermost quantifiers, no
`NegatedFormula` is applied to a propositional combinator or a
quantified formula.  Quantifier bodies are not inspected. -/
def nnfOutside : Formula → Bool
  | .negF x => negAtom x
  | .conjF args => nnfOutsideList args
  | .disjF args => nnfOutsideList args
  | _ => true
termination_by f => 2 * sizeF f
decreasing_by
  all_goals simp only [sizeF, sizeFList]
  all_goals omega

/-- Conjunct-wise `nnfOutside`. -/
def nnfOutsideList : List Formula → Bool
  | [] => true
  | f :: fs => nnfOutside f && nnfOutsideList fs
termination_by l => 2 * sizeFList l + 1
decreasing_by
  all_goals simp only [sizeFList]
  all_goals (have haux := sizeF_pos f; omega)
end

theorem nnfOutside_pyAnd {a b : Formula} (ha : nnfOutside a = true)
    (hb : nnfOutside b = true) : nnfOutside (pyAnd a b) = true := by
  unfold pyAnd
  split_ifs <;> simp_all [nnfOutside, nnfOutsideList, negAtom, smtFalseF]

theorem nnfOutside_pyOr {a b : Formula} (ha : nnfOutside a = true)
    (hb : nnfOutside b = true) : nnfOutside (pyOr a b) = true := by
  unfold pyOr
  split_ifs <;> simp_all [nnfOutside, nnfOutsideList, negAtom, smtTrueF]

theorem nnfOutside_foldl_pyAnd (l : List Formula) : ∀ a : Formula,
    nnfOutside a = true → (∀ f ∈ l, nnfOutside f = true) →
    nnfOutside (l.foldl pyAnd a) = true := by
  induction l with
  | nil => intro a ha _; simpa using ha
  | cons x xs ih =>
    intro a ha h
    simp only [List.foldl_cons]
    exact ih (pyAnd a x) (nnfOutside_pyAnd ha (h x (by simp)))
      (fun f hf => h f (by simp [hf]))

theorem nnfOutside_foldl_pyOr (l : List Formula) : ∀ a : Formula,
    nnfOutside a = true → (∀ f ∈ l, nnfOutside f = true) →
    nnfOutside (l.foldl pyOr a) = true := by
  induction l with
  | nil => intro a ha _; simpa using ha
  | cons x xs ih =>
    intro a ha h
    simp only [List.foldl_cons]
    exact ih (pyOr a x) (nnfOutside_pyOr ha (h x (by simp)))
      (fun f hf => h f (by simp [hf]))

theorem nnfOutside_pyReduceAnd {l : List Formula}
    (h : ∀ f ∈ l, nnfOutside f = true) : nnfOutside (pyReduceAnd l) = true := by
  cases l with
  | nil => simp [pyReduceAnd, smtTrueF, nnfOutside]
  | cons x xs =>
    simp only [pyReduceAnd]
    exact nnfOutside_foldl_pyAnd xs x (h x (by simp)) (fun f hf => h f (by simp [hf]))

theorem nnfOutside_pyReduceOr {l : List Formula}
    (h : ∀ f ∈ l, nnfOutside f = true) : nnfOutside (pyReduceOr l) = true := by
  cases l with
  | nil => simp [pyReduceOr, smtFalseF, nnfOutside]
  | cons x xs =>
    simp only [pyReduceOr]
    exact nnfOutside_foldl_pyOr xs x (h x (by simp)) (fun f hf => h f (by simp [hf]))

mutual
/-- `convert_to_nnf` always leaves its result with a clean propositional
skeleton: no negation over a combinator or quantifier outside the
(unconverted) quantifier bodies. -/
theorem nnfOutside_convertToNNF : (f : Formula) → ∀ (negate : Bool) (c : Nat),
    nnfOutside (convertToNNF f negate c).1 = true
  | .smt e fv iv sub ae, negate, c => by simp [convertToNNF, nnfOutside]
  | .structPred p args, negate, c => by
    cases negate <;> simp [convertToNNF, pyNeg, nnfOutside, negAtom]
  | .semPred p args o, negate, c => by
    cases negate <;> simp [convertToNNF, pyNeg, nnfOutside, negAtom]
  | .negF x, negate, c => by
    simp only [convertToNNF]
    exact nnfOutside_convertToNNF x (!negate) c
  | .conjF args, negate, c => by
    have ih := nnfOutsideList_nnfList args negate c
    rcases hE : nnfList args negate c with ⟨rs, c2⟩
    rw [hE] at ih
    simp only [convertToNNF, hE]
    cases negate
    · simpa using nnfOutside_pyReduceAnd ih
    · simpa using nnfOutside_pyReduceOr ih
  | .disjF args, negate, c => by
    have ih := nnfOutsideList_nnfList args negate c
    rcases hE : nnfList args negate c with ⟨rs, c2⟩
    rw [hE] at ih
    simp only [convertToNNF, hE]
    cases negate
    · simpa using nnfOutside_pyReduceOr ih
    · simpa using nnfOutside_pyReduceAnd ih
  | .forallIntF bv inner, negate, c => by
    cases negate <;> simp [convertToNNF, nnfOutside]
  | .existsIntF bv inner, negate, c => by
    cases negate <;> simp [convertToNNF, nnfOutside]
  | .forallF bv iv inner be am fid, negate, c => by
    cases negate <;> simp [convertToNNF, nnfOutside]
  | .existsF bv iv inner be, negate, c => by
    cases negate <;> simp [convertToNNF, nnfOutside]
termination_by f => sizeF f
decreasing_by
  all_goals simp only [sizeF, sizeFList]
  all_goals omega

/-- Element-wise form of `nnfOutside_convertToNNF`. -/
theorem nnfOutsideList_nnfList : (l : List Formula) → ∀ (negate : Bool) (c : Nat),
    ∀ g ∈ (nnfList l negate c).1, nnfOutside g = true
  | [], negate, c => by simp [nnfList]
  | f :: fs, negate, c => by
    have ih1 := nnfOutside_convertToNNF f negate c
    rcases hE1 : convertToNNF f negate c with ⟨f1, c1⟩
    rw [hE1] at ih1
    have ih2 := nnfOutsideList_nnfList fs negate c1
    rcases hE2 : nnfList fs negate c1 with ⟨fs1, c2⟩
    rw [hE2] at ih2
    simp only [nnfList, hE1, hE2]
    intro g hg
    rcases List.mem_cons.mp hg with rfl | hm
    · exact ih1
    · exact ih2 g hm
termination_by l => sizeFList l + 1
decreasing_by
  all_goals simp only [sizeFList]
  · omega
  · have := sizeF_pos f
    omega
end

/-- **C3 counterexample.**  With `negate = False`, `convert_to_nnf`
copies a quantifier body unchanged, so the negated conjunction inside
`∀ int n. ¬(p ∧ p)` survives the conversion: the result still contains a
`NegatedFormula` applied to a propositional combinator. -/
theorem convert_to_nnf_body_negation_counterexample :
    (convertToNNF (.forallIntF nIntVar (.negF (.conjF [predP, predP]))) false 0).1
      = .forallIntF nIntVar (.negF (.conjF [predP, predP])) ∧
    nnfDeep (convertToNNF (.forallIntF nIntVar
      (.negF (.conjF [predP, predP]))) false 0).1 = false := by
  have h1 : (convertToNNF (.forallIntF nIntVar
      (.negF (.conjF [predP, predP]))) false 0).1
      = .forallIntF nIntVar (.negF (.conjF [predP, predP])) := by
    simp [convertToNNF]
  refine ⟨h1, ?_⟩
  rw [h1]
  simp [nnfDeep, negAtom]

/-- **C3** (amended): for every formula, `convert_to_nnf` (with either
negation flag) returns a formula whose propositional skeleton — the part
above the outermost quantifiers — contains no `NegatedFormula` applied
to a propositional combinator or a quantified formula; quantifier bodies
reached with an unnegated context are copied unchanged, so negations
inside them may survive. -/
theorem convert_to_nnf_pushes_negations (f : Formula) (negate : Bool) (c : Nat) :
    nnfOutside (convertToNNF f negate c).1 = true :=
  nnfOutside_convertToNNF f negate c

mutual
/-- Erases the one formula component that `convert_to_nnf` regenerates
on every pass: the internal id a rebuilt `ForallFormula` draws from the
global counter.  Python `==` (`pyEq`) never inspects this id, so two
formulas with equal `strip` images are `==`-equal. -/
def strip : Formula → Formula
  | .negF x => .negF (strip x)
  | .conjF args => .conjF (stripList args)
  | .disjF args => .disjF (stripList args)
  | .forallF bv iv inner be am _ => .forallF bv iv (strip inner) be am 0
  | .existsF bv iv inner be => .existsF bv iv (strip inner) be
  | .forallIntF bv inner => .forallIntF bv (strip inner)
  | .existsIntF bv inner => .existsIntF bv (strip inner)
  | f => f
termination_by f => 2 * sizeF f
decreasing_by
  all_goals simp only [sizeF, sizeFList]
  all_goals omega

/-- Argument-wise `strip`. -/
def stripList : List Formula → List Formula
  | [] => []
  | f :: fs => strip f :: stripList fs
termination_by l => 2 * sizeFList l + 1
decreasing_by
  all_goals simp only [sizeFList]
  all_goals (have haux := sizeF_pos f; omega)
end

theorem stripList_eq_map : (l : List Formula) → stripList l = l.map strip
  | [] => by simp [stripList]
  | f :: fs => by simp only [stripList, List.map_cons, stripList_eq_map fs]

mutual
theorem strip_splitConj : (f : Formula) →
    splitConjunction (strip f) = (splitConjunction f).map strip
  | .conjF args => by
    simp only [strip, splitConjunction]
    exact strip_splitConjList args
  | .smt e fv iv s ae => by simp [strip, splitConjunction]
  | .structPred p args => by simp [strip, splitConjunction]
  | .semPred p args o => by simp [strip, splitConjunction]
  | .negF x => by simp [strip, splitConjunction]
  | .disjF args => by simp [strip, splitConjunction]
  | .forallF bv iv inner be am fid => by simp [strip, splitConjunction]
  | .existsF bv iv inner be => by simp [strip, splitConjunction]
  | .forallIntF bv inner => by simp [strip, splitConjunction]
  | .existsIntF bv inner => by simp [strip, splitConjunction]
termination_by f => sizeF f
decreasing_by
  all_goals simp only [sizeF, sizeFList]
  all_goals omega

theorem strip_splitConjList : (l : List Formula) →
    splitConjList (stripList l) = (splitConjList l).map strip
  | [] => by simp [stripList, splitConjList]
  | f :: fs => by
    have h1 := strip_splitConj f
    have h2 := strip_splitConjList fs
    simp only [stripList, splitConjList, List.map_append, h1, h2]
termination_by l => sizeFList l + 1
decreasing_by
  all_goals simp only [sizeFList]
  all_goals first
  | omega
  | (have haux := sizeF_pos x
     omega)
end

mutual
theorem strip_splitDisj : (f : Formula) →
    splitDisjunction (strip f) = (splitDisjunction f).map strip
  | .disjF args => by
    simp only [strip, splitDisjunction]
    exact strip_splitDisjList args
  | .smt e fv iv s ae => by simp [strip, splitDisjunction]
  | .structPred p args => by simp [strip, splitDisjunction]
  | .semPred p args o => by simp [strip, splitDisjunction]
  | .negF x => by simp [strip, splitDisjunction]
  | .conjF args => by simp [strip, splitDisjunction]
  | .forallF bv iv inner be am fid => by simp [strip, splitDisjunction]
  | .existsF bv iv inner be => by simp [strip, splitDisjunction]
  | .forallIntF bv inner => by simp [strip, splitDisjunction]
  | .existsIntF bv inner => by simp [strip, splitDisjunction]
termination_by f => sizeF f
decreasing_by
  all_goals simp only [sizeF, sizeFList]
  all_goals omega

theorem strip_splitDisjList : (l : List Formula) →
    splitDisjList (stripList l) = (splitDisjList l).map strip
  | [] => by simp [stripList, splitDisjList]
  | f :: fs => by
    have h1 := strip_splitDisj f
    have h2 := strip_splitDisjList fs
    simp only [stripList, splitDisjList, List.map_append, h1, h2]
termination_by l => sizeFList l + 1
decreasing_by
  all_goals simp only [sizeFList]
  all_goals first
  | omega
  | (have haux := sizeF_pos x
     omega)
end

theorem strip_isSmtFalse : (f : Formula) → isSmtFalse (strip f) = isSmtFalse f
  | .smt e fv iv s ae => by simp [strip, isSmtFalse]
  | .structPred p args => by simp [strip, isSmtFalse]
  | .semPred p args o => by simp [strip, isSmtFalse]
  | .negF x => by simp [strip, isSmtFalse]
  | .conjF args => by simp [strip, isSmtFalse]
  | .disjF args => by simp [strip, isSmtFalse]
  | .forallF bv iv inner be am fid => by simp [strip, isSmtFalse]
  | .existsF bv iv inner be => by simp [strip, isSmtFalse]
  | .forallIntF bv inner => by simp [strip, isSmtFalse]
  | .existsIntF bv inner => by simp [strip, isSmtFalse]

theorem strip_isSmtTrue : (f : Formula) → isSmtTrue (strip f) = isSmtTrue f
  | .smt e fv iv s ae => by simp [strip, isSmtTrue]
  | .structPred p args => by simp [strip, isSmtTrue]
  | .semPred p args o => by simp [strip, isSmtTrue]
  | .negF x => by simp [strip, isSmtTrue]
  | .conjF args => by simp [strip, isSmtTrue]
  | .disjF args => by simp [strip, isSmtTrue]
  | .forallF bv iv inner be am fid => by simp [strip, isSmtTrue]
  | .existsF bv iv inner be => by simp [strip, isSmtTrue]
  | .forallIntF bv inner => by simp [strip, isSmtTrue]
  | .existsIntF bv inner => by simp [strip, isSmtTrue]

mutual
/-- Python `==` never inspects the component that `strip` erases: `pyEq`
factors through `strip`. -/
theorem pyEq_strip : (a b : Formula) → pyEq a b = pyEq (strip a) (strip b)
  | .smt e fv iv s ae, .smt e2 fv2 iv2 s2 ae2 => by simp only [strip]
  | .smt _ _ _ _ _, .structPred _ _ => by simp [pyEq, strip]
  | .smt _ _ _ _ _, .semPred _ _ _ => by simp [pyEq, strip]
  | .smt _ _ _ _ _, .negF _ => by simp [pyEq, strip]
  | .smt _ _ _ _ _, .conjF _ => by simp [pyEq, strip]
  | .smt _ _ _ _ _, .disjF _ => by simp [pyEq, strip]
  | .smt _ _ _ _ _, .forallF _ _ _ _ _ _ => by simp [pyEq, strip]
  | .smt _ _ _ _ _, .existsF _ _ _ _ => by simp [pyEq, strip]
  | .smt _ _ _ _ _, .forallIntF _ _ => by simp [pyEq, strip]
  | .smt _ _ _ _ _, .existsIntF _ _ => by simp [pyEq, strip]
  | .structPred p args, .structPred p2 args2 => by simp only [strip]
  | .structPred _ _, .smt _ _ _ _ _ => by simp [pyEq, strip]
  | .structPred _ _, .semPred _ _ _ => by simp [pyEq, strip]
  | .structPred _ _, .negF _ => by simp [pyEq, strip]
  | .structPred _ _, .conjF _ => by simp [pyEq, strip]
  | .structPred _ _, .disjF _ => by simp [pyEq, strip]
  | .structPred _ _, .forallF _ _ _ _ _ _ => by simp [pyEq, strip]
  | .structPred _ _, .existsF _ _ _ _ => by simp [pyEq, strip]
  | .structPred _ _, .forallIntF _ _ => by simp [pyEq, strip]
  | .structPred _ _, .existsIntF _ _ => by simp [pyEq, strip]
  | .semPred p args o, .semPred p2 args2 o2 => by simp only [strip]
  | .semPred _ _ _, .smt _ _ _ _ _ => by simp [pyEq, strip]
  | .semPred _ _ _, .structPred _ _ => by simp [pyEq, strip]
  | .semPred _ _ _, .negF _ => by simp [pyEq, strip]
  | .semPred _ _ _, .conjF _ => by simp [pyEq, strip]
  | .semPred _ _ _, .disjF _ => by simp [pyEq, strip]
  | .semPred _ _ _, .forallF _ _ _ _ _ _ => by simp [pyEq, strip]
  | .semPred _ _ _, .existsF _ _ _ _ => by simp [pyEq, strip]
  | .semPred _ _ _, .forallIntF _ _ => by simp [pyEq, strip]
  | .semPred _ _ _, .existsIntF _ _ => by simp [pyEq, strip]
  | .negF x, .negF y => by
    have h := pyEq_strip x y
    simp only [strip, pyEq]
    exact h
  | .negF _, .smt _ _ _ _ _ => by simp [pyEq, strip]
  | .negF _, .structPred _ _ => by simp [pyEq, strip]
  | .negF _, .semPred _ _ _ => by simp [pyEq, strip]
  | .negF _, .conjF _ => by simp [pyEq, strip]
  | .negF _, .disjF _ => by simp [pyEq, strip]
  | .negF _, .forallF _ _ _ _ _ _ => by simp [pyEq, strip]
  | .negF _, .existsF _ _ _ _ => by simp [pyEq, strip]
  | .negF _, .forallIntF _ _ => by simp [pyEq, strip]
  | .negF _, .existsIntF _ _ => by simp [pyEq, strip]
  | .conjF cargs, b => by
    have h3 := listPyEq_strip (splitConjunction (.conjF cargs)) (splitConjunction b)
    simp only [strip]
    simp only [pyEq]
    rw [strip_splitConj b]
    have h4 : splitConjunction (Formula.conjF (stripList cargs))
        = (splitConjunction (Formula.conjF cargs)).map strip := by
      simp only [splitConjunction]
      exact strip_splitConjList cargs
    rw [h4]
    exact h3
  | .disjF cargs, b => by
    have h3 := listPyEq_strip (splitDisjunction (.disjF cargs)) (splitDisjunction b)
    simp only [strip]
    simp only [pyEq]
    rw [strip_splitDisj b]
    have h4 : splitDisjunction (Formula.disjF (stripList cargs))
        = (splitDisjunction (Formula.disjF cargs)).map strip := by
      simp only [splitDisjunction]
      exact strip_splitDisjList cargs
    rw [h4]
    exact h3
  | .forallF bv iv inn be am fid, .forallF bv2 iv2 inn2 be2 am2 fid2 => by
    have h := pyEq_strip inn inn2
    simp only [strip, pyEq]
    rw [h]
  | .forallF _ _ _ _ _ _, .smt _ _ _ _ _ => by simp [pyEq, strip]
  | .forallF _ _ _ _ _ _, .structPred _ _ => by simp [pyEq, strip]
  | .forallF _ _ _ _ _ _, .semPred _ _ _ => by simp [pyEq, strip]
  | .forallF _ _ _ _ _ _, .negF _ => by simp [pyEq, strip]
  | .forallF _ _ _ _ _ _, .conjF _ => by simp [pyEq, strip]
  | .forallF _ _ _ _ _ _, .disjF _ => by simp [pyEq, strip]
  | .forallF _ _ _ _ _ _, .existsF _ _ _ _ => by simp [pyEq, strip]
  | .forallF _ _ _ _ _ _, .forallIntF _ _ => by simp [pyEq, strip]
  | .forallF _ _ _ _ _ _, .existsIntF _ _ => by simp [pyEq, strip]
  | .existsF bv iv inn be, .existsF bv2 iv2 inn2 be2 => by
    have h := pyEq_strip inn inn2
    simp only [strip, pyEq]
    rw [h]
  | .existsF _ _ _ _, .smt _ _ _ _ _ => by simp [pyEq, strip]
  | .existsF _ _ _ _, .structPred _ _ => by simp [pyEq, strip]
  | .existsF _ _ _ _, .semPred _ _ _ => by simp [pyEq, strip]
  | .existsF _ _ _ _, .negF _ => by simp [pyEq, strip]
  | .existsF _ _ _ _, .conjF _ => by simp [pyEq, strip]
  | .existsF _ _ _ _, .disjF _ => by simp [pyEq, strip]
  | .existsF _ _ _ _, .forallF _ _ _ _ _ _ => by simp [pyEq, strip]
  | .existsF _ _ _ _, .forallIntF _ _ => by simp [pyEq, strip]
  | .existsF _ _ _ _, .existsIntF _ _ => by simp [pyEq, strip]
  | .forallIntF bv inn, .forallIntF bv2 inn2 => by
    have h := pyEq_strip inn inn2
    simp only [strip, pyEq]
    rw [h]
  | .forallIntF _ _, .smt _ _ _ _ _ => by simp [pyEq, strip]
  | .forallIntF _ _, .structPred _ _ => by simp [pyEq, strip]
  | .forallIntF _ _, .semPred _ _ _ => by simp [pyEq, strip]
  | .forallIntF _ _, .negF _ => by simp [pyEq, strip]
  | .forallIntF _ _, .conjF _ => by simp [pyEq, strip]
  | .forallIntF _ _, .disjF _ => by simp [pyEq, strip]
  | .forallIntF _ _, .forallF _ _ _ _ _ _ => by simp [pyEq, strip]
  | .forallIntF _ _, .existsF _ _ _ _ => by simp [pyEq, strip]
  | .forallIntF _ _, .existsIntF _ _ => by simp [pyEq, strip]
  | .existsIntF bv inn, .existsIntF bv2 inn2 => by
    have h := pyEq_strip inn inn2
    simp only [strip, pyEq]
    rw [h]
  | .existsIntF _ _, .smt _ _ _ _ _ => by simp [pyEq, strip]
  | .existsIntF _ _, .structPred _ _ => by simp [pyEq, strip]
  | .existsIntF _ _, .semPred _ _ _ => by simp [pyEq, strip]
  | .existsIntF _ _, .negF _ => by simp [pyEq, strip]
  | .existsIntF _ _, .conjF _ => by simp [pyEq, strip]
  | .existsIntF _ _, .disjF _ => by simp [pyEq, strip]
  | .existsIntF _ _, .forallF _ _ _ _ _ _ => by simp [pyEq, strip]
  | .existsIntF _ _, .existsF _ _ _ _ => by simp [pyEq, strip]
  | .existsIntF _ _, .forallIntF _ _ => by simp [pyEq, strip]
termination_by a b => sizeF a + sizeF b
decreasing_by
  all_goals simp only [sizeF]
  all_goals first
  | omega
  | (have h1 := splitConj_size_conj cargs
     have h2 := splitConj_size_le b
     simp only [sizeF] at h1
     omega)
  | (have h1 := splitDisj_size_disj cargs
     have h2 := splitDisj_size_le b
     simp only [sizeF] at h1
     omega)

/-- Pointwise form of `pyEq_strip`. -/
theorem listPyEq_strip : (xs ys : List Formula) →
    listPyEq xs ys = listPyEq (xs.map strip) (ys.map strip)
  | [], [] => by simp [listPyEq]
  | [], y :: ys => by simp [listPyEq]
  | x :: xs, [] => by simp [listPyEq]
  | x :: xs, y :: ys => by
    have h1 := pyEq_strip x y
    have h2 := listPyEq_strip xs ys
    simp only [List.map_cons, listPyEq, h1, h2]
termination_by xs ys => sizeFList xs + sizeFList ys + 1
decreasing_by
  all_goals simp only [sizeF, sizeFList]
  all_goals (try (have h1 := sizeF_pos x; have h2 := sizeF_pos y)); omega
end

theorem pyEq_of_strip_eq {a b : Formula} (h : strip a = strip b) :
    pyEq a b = true := by
  rw [pyEq_strip a b, h]
  exact pyEq_refl (strip b)

theorem z3Push_idem (e : Z3Expr) : ∀ negate : Bool,
    z3PushInNegations (z3PushInNegations e negate) false
      = z3PushInNegations e negate := by
  induction e with
  | boolVal b => intro negate; cases negate <;> simp [z3PushInNegations]
  | notE a ih => intro negate; simp only [z3PushInNegations]; exact ih (!negate)
  | andE a b iha ihb =>
    intro negate
    cases negate <;> simp [z3PushInNegations, iha, ihb]
  | orE a b iha ihb =>
    intro negate
    cases negate <;> simp [z3PushInNegations, iha, ihb]
  | atom op args => intro negate; cases negate <;> simp [z3PushInNegations]

theorem foldl_osAdd_disjoint {α : Type} [DecidableEq α] :
    ∀ (l acc : List α), l.Nodup → (∀ x ∈ l, x ∉ acc) →
      l.foldl osAdd acc = acc ++ l
  | [], acc, _, _ => by simp
  | x :: xs, acc, hnd, hdis => by
    simp only [List.foldl_cons]
    have hx : x ∉ acc := hdis x (by simp)
    have h1 : osAdd acc x = acc ++ [x] := by simp [osAdd, hx]
    rw [h1]
    have hnd2 : xs.Nodup := (List.nodup_cons.mp hnd).2
    have hx2 : x ∉ xs := (List.nodup_cons.mp hnd).1
    have hdis2 : ∀ y ∈ xs, y ∉ acc ++ [x] := by
      intro y hy
      simp only [List.mem_append, List.mem_singleton]
      rintro (hc | rfl)
      · exact hdis y (by simp [hy]) hc
      · exact hx2 hy
    rw [foldl_osAdd_disjoint xs (acc ++ [x]) hnd2 hdis2]
    simp

theorem odedup_of_nodup {α : Type} [DecidableEq α] {l : List α}
    (h : l.Nodup) : odedup l = l := by
  unfold odedup
  rw [foldl_osAdd_disjoint l [] h (by simp)]
  simp

theorem odedup_idem {α : Type} [DecidableEq α] (l : List α) :
    odedup (odedup l) = odedup l :=
  odedup_of_nodup (nodup_odedup l)

theorem strip_negF_inv : (a : Formula) → ∀ w, strip a = .negF w →
    ∃ u, a = .negF u ∧ strip u = w
  | .negF u, w, h => ⟨u, rfl, by simpa [strip] using h⟩
  | .smt e fv iv s ae, w, h => by simp [strip] at h
  | .structPred p args, w, h => by simp [strip] at h
  | .semPred p args o, w, h => by simp [strip] at h
  | .conjF args, w, h => by simp [strip] at h
  | .disjF args, w, h => by simp [strip] at h
  | .forallF bv iv inner be am fid, w, h => by simp [strip] at h
  | .existsF bv iv inner be, w, h => by simp [strip] at h
  | .forallIntF bv inner, w, h => by simp [strip] at h
  | .existsIntF bv inner, w, h => by simp [strip] at h

theorem fix_smtFalseF (k : Nat) :
    strip (convertToNNF smtFalseF false k).1 = strip smtFalseF := by
  simp [convertToNNF, smtFalseF, z3PushInNegations, getSymbols, odedup, strip]

theorem fix_smtTrueF (k : Nat) :
    strip (convertToNNF smtTrueF false k).1 = strip smtTrueF := by
  simp [convertToNNF, smtTrueF, z3PushInNegations, getSymbols, odedup, strip]

/-- If a second `convert_to_nnf` pass (with `negate=False`) fixes `a`
and `b` up to `strip`, it also fixes the smart conjunction `a & b`. -/
theorem fix_pyAnd {a b : Formula}
    (ha : ∀ k, strip (convertToNNF a false k).1 = strip a)
    (hb : ∀ k, strip (convertToNNF b false k).1 = strip b) :
    ∀ k, strip (convertToNNF (pyAnd a b) false k).1 = strip (pyAnd a b) := by
  intro k
  by_cases h1 : pyEq a b = true
  · have hr : pyAnd a b = a := by unfold pyAnd; rw [if_pos h1]
    rw [hr]; exact ha k
  by_cases h2 : isSmtFalse a = true
  · have hr : pyAnd a b = a := by unfold pyAnd; rw [if_neg h1, if_pos h2]
    rw [hr]; exact ha k
  by_cases h3 : isSmtFalse b = true
  · have hr : pyAnd a b = b := by
      unfold pyAnd; rw [if_neg h1, if_neg h2, if_pos h3]
    rw [hr]; exact hb k
  by_cases h4 : isSmtTrue a = true
  · have hr : pyAnd a b = b := by
      unfold pyAnd; rw [if_neg h1, if_neg h2, if_neg h3, if_pos h4]
    rw [hr]; exact hb k
  by_cases h5 : isSmtTrue b = true
  · have hr : pyAnd a b = a := by
      unfold pyAnd; rw [if_neg h1, if_neg h2, if_neg h3, if_neg h4, if_pos h5]
    rw [hr]; exact ha k
  by_cases h6 : ∃ u, a = .negF u ∧ pyEq u b = true
  · obtain ⟨u, rfl, hu⟩ := h6
    have hr : pyAnd (.negF u) b = smtFalseF := by
      unfold pyAnd
      rw [if_neg h1, if_neg h2, if_neg h3, if_neg h4, if_neg h5,
        if_pos (by simpa using hu)]
    rw [hr]; exact fix_smtFalseF k
  have h6x : ∀ u, a = .negF u → pyEq u b = false := by
    intro u hu
    cases hq : pyEq u b
    · rfl
    · exact absurd ⟨u, hu, hq⟩ h6
  by_cases h7 : ∃ v, b = .negF v ∧ pyEq v a = true
  · obtain ⟨v, rfl, hv⟩ := h7
    have hr : pyAnd a (.negF v) = smtFalseF := by
      unfold pyAnd
      rw [if_neg h1, if_neg h2, if_neg h3, if_neg h4, if_neg h5]
      rw [if_neg ?hc6, if_pos (by simpa using hv)]
      case hc6 =>
        intro hc
        split at hc
        all_goals simp_all
    rw [hr]; exact fix_smtFalseF k
  have h7x : ∀ v, b = .negF v → pyEq v a = false := by
    intro v hv
    cases hq : pyEq v a
    · rfl
    · exact absurd ⟨v, hv, hq⟩ h7
  have hr : pyAnd a b = .conjF [a, b] := by
    unfold pyAnd
    rw [if_neg h1, if_neg h2, if_neg h3, if_neg h4, if_neg h5]
    rw [if_neg ?c6, if_neg ?c7]
    case c6 =>
      intro hc
      split at hc
      all_goals simp_all
    case c7 =>
      intro hc
      split at hc
      all_goals simp_all
  rw [hr]
  rcases hA : convertToNNF a false k with ⟨a2, kA⟩
  rcases hB : convertToNNF b false kA with ⟨b2, kB⟩
  have hsa : strip a2 = strip a := by have h := ha k; rwa [hA] at h
  have hsb : strip b2 = strip b := by have h := hb kA; rwa [hB] at h
  have hg : (convertToNNF (.conjF [a, b]) false k).1 = pyAnd a2 b2 := by
    simp [convertToNNF, nnfList, hA, hB, pyReduceAnd]
  rw [hg]
  have hab : pyEq a b = false := by simpa using h1
  have q1 : pyEq a2 b2 = false := by
    rw [pyEq_strip a2 b2, hsa, hsb, ← pyEq_strip a b]
    exact hab
  have q2 : isSmtFalse a2 = false := by
    rw [← strip_isSmtFalse a2, hsa, strip_isSmtFalse a]
    simpa using h2
  have q3 : isSmtFalse b2 = false := by
    rw [← strip_isSmtFalse b2, hsb, strip_isSmtFalse b]
    simpa using h3
  have q4 : isSmtTrue a2 = false := by
    rw [← strip_isSmtTrue a2, hsa, strip_isSmtTrue a]
    simpa using h4
  have q5 : isSmtTrue b2 = false := by
    rw [← strip_isSmtTrue b2, hsb, strip_isSmtTrue b]
    simpa using h5
  have q6 : ∀ u, a2 = .negF u → pyEq u b2 = false := by
    intro u hu
    have hsa2 : strip a = .negF (strip u) := by
      rw [← hsa, hu]
      simp [strip]
    obtain ⟨u0, rfl, hsu⟩ := strip_negF_inv a _ hsa2
    rw [pyEq_strip u b2, hsb, ← hsu, ← pyEq_strip u0 b]
    exact h6x u0 rfl
  have q7 : ∀ v, b2 = .negF v → pyEq v a2 = false := by
    intro v hv
    have hsb2 : strip b = .negF (strip v) := by
      rw [← hsb, hv]
      simp [strip]
    obtain ⟨v0, rfl, hsv⟩ := strip_negF_inv b _ hsb2
    rw [pyEq_strip v a2, hsa, ← hsv, ← pyEq_strip v0 a]
    exact h7x v0 rfl
  have hr2 : pyAnd a2 b2 = .conjF [a2, b2] := by
    unfold pyAnd
    rw [if_neg (by simp [q1]), if_neg (by simp [q2]), if_neg (by simp [q3]),
      if_neg (by simp [q4]), if_neg (by simp [q5])]
    rw [if_neg ?d6, if_neg ?d7]
    case d6 =>
      intro hc
      split at hc
      all_goals simp_all
    case d7 =>
      intro hc
      split at hc
      all_goals simp_all
  rw [hr2]
  simp [strip, stripList, hsa, hsb]

/-- Dual of `fix_pyAnd` for the smart disjunction `a | b`. -/
theorem fix_pyOr {a b : Formula}
    (ha : ∀ k, strip (convertToNNF a false k).1 = strip a)
    (hb : ∀ k, strip (convertToNNF b false k).1 = strip b) :
    ∀ k, strip (convertToNNF (pyOr a b) false k).1 = strip (pyOr a b) := by
  intro k
  by_cases h1 : pyEq a b = true
  · have hr : pyOr a b = a := by unfold pyOr; rw [if_pos h1]
    rw [hr]; exact ha k
  by_cases h2 : isSmtTrue a = true
  · have hr : pyOr a b = a := by unfold pyOr; rw [if_neg h1, if_pos h2]
    rw [hr]; exact ha k
  by_cases h3 : isSmtTrue b = true
  · have hr : pyOr a b = b := by
      unfold pyOr; rw [if_neg h1, if_neg h2, if_pos h3]
    rw [hr]; exact hb k
  by_cases h4 : isSmtFalse a = true
  · have hr : pyOr a b = b := by
      unfold pyOr; rw [if_neg h1, if_neg h2, if_neg h3, if_pos h4]
    rw [hr]; exact hb k
  by_cases h5 : isSmtFalse b = true
  · have hr : pyOr a b = a := by
      unfold pyOr; rw [if_neg h1, if_neg h2, if_neg h3, if_neg h4, if_pos h5]
    rw [hr]; exact ha k
  by_cases h6 : ∃ u, a = .negF u ∧ pyEq u b = true
  · obtain ⟨u, rfl, hu⟩ := h6
    have hr : pyOr (.negF u) b = smtTrueF := by
      unfold pyOr
      rw [if_neg h1, if_neg h2, if_neg h3, if_neg h4, if_neg h5,
        if_pos (by simpa using hu)]
    rw [hr]; exact fix_smtTrueF k
  have h6x : ∀ u, a = .negF u → pyEq u b = false := by
    intro u hu
    cases hq : pyEq u b
    · rfl
    · exact absurd ⟨u, hu, hq⟩ h6
  by_cases h7 : ∃ v, b = .negF v ∧ pyEq v a = true
  · obtain ⟨v, rfl, hv⟩ := h7
    have hr : pyOr a (.negF v) = smtTrueF := by
      unfold pyOr
      rw [if_neg h1, if_neg h2, if_neg h3, if_neg h4, if_neg h5]
      rw [if_neg ?hc6, if_pos (by simpa using hv)]
      case hc6 =>
        intro hc
        split at hc
        all_goals simp_all
    rw [hr]; exact fix_smtTrueF k
  have h7x : ∀ v, b = .negF v → pyEq v a = false := by
    intro v hv
    cases hq : pyEq v a
    · rfl
    · exact absurd ⟨v, hv, hq⟩ h7
  have hr : pyOr a b = .disjF [a, b] := by
    unfold pyOr
    rw [if_neg h1, if_neg h2, if_neg h3, if_neg h4, if_neg h5]
    rw [if_neg ?c6, if_neg ?c7]
    case c6 =>
      intro hc
      split at hc
      all_goals simp_all
    case c7 =>
      intro hc
      split at hc
      all_goals simp_all
  rw [hr]
  rcases hA : convertToNNF a false k with ⟨a2, kA⟩
  rcases hB : convertToNNF b false kA with ⟨b2, kB⟩
  have hsa : strip a2 = strip a := by have h := ha k; rwa [hA] at h
  have hsb : strip b2 = strip b := by have h := hb kA; rwa [hB] at h
  have hg : (convertToNNF (.disjF [a, b]) false k).1 = pyOr a2 b2 := by
    simp [convertToNNF, nnfList, hA, hB, pyReduceOr]
  rw [hg]
  have hab : pyEq a b = false := by simpa using h1
  have q1 : pyEq a2 b2 = false := by
    rw [pyEq_strip a2 b2, hsa, hsb, ← pyEq_strip a b]
    exact hab
  have q2 : isSmtTrue a2 = false := by
    rw [← strip_isSmtTrue a2, hsa, strip_isSmtTrue a]
    simpa using h2
  have q3 : isSmtTrue b2 = false := by
    rw [← strip_isSmtTrue b2, hsb, strip_isSmtTrue b]
    simpa using h3
  have q4 : isSmtFalse a2 = false := by
    rw [← strip_isSmtFalse a2, hsa, strip_isSmtFalse a]
    simpa using h4
  have q5 : isSmtFalse b2 = false := by
    rw [← strip_isSmtFalse b2, hsb, strip_isSmtFalse b]
    simpa using h5
  have q6 : ∀ u, a2 = .negF u → pyEq u b2 = false := by
    intro u hu
    have hsa2 : strip a = .negF (strip u) := by
      rw [← hsa, hu]
      simp [strip]
    obtain ⟨u0, rfl, hsu⟩ := strip_negF_inv a _ hsa2
    rw [pyEq_strip u b2, hsb, ← hsu, ← pyEq_strip u0 b]
    exact h6x u0 rfl
  have q7 : ∀ v, b2 = .negF v → pyEq v a2 = false := by
    intro v hv
    have hsb2 : strip b = .negF (strip v) := by
      rw [← hsb, hv]
      simp [strip]
    obtain ⟨v0, rfl, hsv⟩ := strip_negF_inv b _ hsb2
    rw [pyEq_strip v a2, hsa, ← hsv, ← pyEq_strip v0 a]
    exact h7x v0 rfl
  have hr2 : pyOr a2 b2 = .disjF [a2, b2] := by
    unfold pyOr
    rw [if_neg (by simp [q1]), if_neg (by simp [q2]), if_neg (by simp [q3]),
      if_neg (by simp [q4]), if_neg (by simp [q5])]
    rw [if_neg ?d6, if_neg ?d7]
    case d6 =>
      intro hc
      split at hc
      all_goals simp_all
    case d7 =>
      intro hc
      split at hc
      all_goals simp_all
  rw [hr2]
  simp [strip, stripList, hsa, hsb]

theorem filter_filter_self {α : Type} (l : List α) (p : α → Bool) :
    (l.filter p).filter p = l.filter p := by
  apply List.filter_eq_self.mpr
  intro x hx
  exact (List.mem_filter.mp hx).2

theorem odedup_filter_idem {α : Type} [DecidableEq α] (l : List α) (p : α → Bool) :
    odedup ((odedup (l.filter p)).filter p) = odedup (l.filter p) := by
  have h1 : (odedup (l.filter p)).filter p = odedup (l.filter p) := by
    apply List.filter_eq_self.mpr
    intro x hx
    exact (List.mem_filter.mp (mem_odedup.mp hx)).2
  rw [h1, odedup_idem]

theorem fix_foldl_pyAnd : ∀ (l : List Formula) (acc : Formula),
    (∀ k, strip (convertToNNF acc false k).1 = strip acc) →
    (∀ g ∈ l, ∀ k, strip (convertToNNF g false k).1 = strip g) →
    ∀ k, strip (convertToNNF (l.foldl pyAnd acc) false k).1
      = strip (l.foldl pyAnd acc) := by
  intro l
  induction l with
  | nil => intro acc ha _; simpa using ha
  | cons x xs ih =>
    intro acc ha h
    simp only [List.foldl_cons]
    exact ih (pyAnd acc x) (fix_pyAnd ha (h x (by simp)))
      (fun g hg => h g (by simp [hg]))

theorem fix_foldl_pyOr : ∀ (l : List Formula) (acc : Formula),
    (∀ k, strip (convertToNNF acc false k).1 = strip acc) →
    (∀ g ∈ l, ∀ k, strip (convertToNNF g false k).1 = strip g) →
    ∀ k, strip (convertToNNF (l.foldl pyOr acc) false k).1
      = strip (l.foldl pyOr acc) := by
  intro l
  induction l with
  | nil => intro acc ha _; simpa using ha
  | cons x xs ih =>
    intro acc ha h
    simp only [List.foldl_cons]
    exact ih (pyOr acc x) (fix_pyOr ha (h x (by simp)))
      (fun g hg => h g (by simp [hg]))

theorem fix_pyReduceAnd {l : List Formula}
    (h : ∀ g ∈ l, ∀ k, strip (convertToNNF g false k).1 = strip g) :
    ∀ k, strip (convertToNNF (pyReduceAnd l) false k).1
      = strip (pyReduceAnd l) := by
  cases l with
  | nil =>
    intro k
    simp only [pyReduceAnd]
    exact fix_smtTrueF k
  | cons x xs =>
    simp only [pyReduceAnd]
    exact fix_foldl_pyAnd xs x (h x (by simp)) (fun g hg => h g (by simp [hg]))

theorem fix_pyReduceOr {l : List Formula}
    (h : ∀ g ∈ l, ∀ k, strip (convertToNNF g false k).1 = strip g) :
    ∀ k, strip (convertToNNF (pyReduceOr l) false k).1
      = strip (pyReduceOr l) := by
  cases l with
  | nil =>
    intro k
    simp only [pyReduceOr]
    exact fix_smtFalseF k
  | cons x xs =>
    simp only [pyReduceOr]
    exact fix_foldl_pyOr xs x (h x (by simp)) (fun g hg => h g (by simp [hg]))

mutual
/-- A second `convert_to_nnf` pass (with `negate=False`) reproduces the
result of any first pass up to `strip` (the regenerated forall ids). -/
theorem convertToNNF_fix : (f : Formula) → ∀ (negate : Bool) (c k : Nat),
    strip (convertToNNF (convertToNNF f negate c).1 false k).1
      = strip (convertToNNF f negate c).1
  | .smt e fv iv s ae, negate, c, k => by
    simp only [convertToNNF]
    rw [z3Push_idem e negate]
    rw [odedup_filter_idem, odedup_filter_idem, filter_filter_self]
  | .structPred p args, negate, c, k => by
    cases negate
    · simp [convertToNNF]
    · simp [convertToNNF, pyNeg]
  | .semPred p args o, negate, c, k => by
    cases negate
    · simp [convertToNNF]
    · simp [convertToNNF, pyNeg]
  | .negF x, negate, c, k => by
    simp only [convertToNNF]
    exact convertToNNF_fix x (!negate) c k
  | .conjF args, negate, c, k => by
    have ihl := convertToNNF_fixList args negate c
    rcases hE : nnfList args negate c with ⟨rs, c2⟩
    rw [hE] at ihl
    simp only [convertToNNF, hE]
    cases negate
    · simpa using fix_pyReduceAnd ihl k
    · simpa using fix_pyReduceOr ihl k
  | .disjF args, negate, c, k => by
    have ihl := convertToNNF_fixList args negate c
    rcases hE : nnfList args negate c with ⟨rs, c2⟩
    rw [hE] at ihl
    simp only [convertToNNF, hE]
    cases negate
    · simpa using fix_pyReduceOr ihl k
    · simpa using fix_pyReduceAnd ihl k
  | .forallF bv iv inner be am fid, negate, c, k => by
    cases negate
    · simp [convertToNNF, strip]
    · rcases hI : convertToNNF inner true c with ⟨inner1, c1⟩
      simp [convertToNNF, hI, strip]
  | .existsF bv iv inner be, negate, c, k => by
    cases negate
    · simp [convertToNNF, strip]
    · rcases hI : convertToNNF inner true c with ⟨inner1, c1⟩
      simp [convertToNNF, hI, strip]
  | .forallIntF bv inner, negate, c, k => by
    cases negate
    · simp [convertToNNF, strip]
    · rcases hI : convertToNNF inner true c with ⟨inner1, c1⟩
      simp [convertToNNF, hI, strip]
  | .existsIntF bv inner, negate, c, k => by
    cases negate
    · simp [convertToNNF, strip]
    · rcases hI : convertToNNF inner true c with ⟨inner1, c1⟩
      simp [convertToNNF, hI, strip]
termination_by f => sizeF f
decreasing_by
  all_goals simp only [sizeF, sizeFList]
  all_goals omega

/-- Element-wise form of `convertToNNF_fix`. -/
theorem convertToNNF_fixList : (l : List Formula) → ∀ (negate : Bool) (c : Nat),
    ∀ g ∈ (nnfList l negate c).1, ∀ k,
      strip (convertToNNF g false k).1 = strip g
  | [], negate, c => by simp [nnfList]
  | f :: fs, negate, c => by
    have ih1 := convertToNNF_fix f negate c
    rcases hE1 : convertToNNF f negate c with ⟨f1, c1⟩
    have ih2 := convertToNNF_fixList fs negate c1
    rcases hE2 : nnfList fs negate c1 with ⟨fs1, c2⟩
    rw [hE1] at ih1
    rw [hE2] at ih2
    simp only [nnfList, hE1, hE2]
    intro g hg
    rcases List.mem_cons.mp hg with rfl | hm
    · exact ih1
    · exact ih2 g hm
termination_by l => sizeFList l + 1
decreasing_by
  all_goals simp only [sizeFList]
  all_goals first
  | omega
  | (have haux := sizeF_pos f
     omega)
end

/-- **C6.**  `convert_to_nnf` is idempotent under Python `==`: a second
pass over the result of a first pass returns a `==`-equal formula (the
only difference is the fresh internal ids drawn for rebuilt
`ForallFormula`s, which `==` ignores; the flattened conjunct and
disjunct lists even coincide order-for-order). -/
theorem convert_to_nnf_idempotent (f : Formula) (c k : Nat) :
    pyEq (convertToNNF (convertToNNF f false c).1 false k).1
      (convertToNNF f false c).1 = true :=
  pyEq_of_strip_eq (convertToNNF_fix f false c k)

end Isla
